import Mathlib

/-!
# Verification of the Monte Carlo tree search core (`src/search_algorithms/mcts.rs`)

This file gives a shallow embedding of the MCTS engine of the repository and
proves/refutes the frozen claims about it.

Modelling conventions:
* `u64` counters are modelled as `ℕ` (the counts reached here are far below
  `2^64`, so wrap-around is immaterial); where a claim depends on the `u64`
  range of `total_searches` the bound `< 2^64` appears as a hypothesis.
* `f64` quantities are modelled exactly: the accumulators `value` (sums of
  `1.0` and `0.5`, always exactly representable) as `ℚ`, and the selection
  value (which involves `ln` and `sqrt`) as `ℝ`.  `NotNaN<f64>` results of
  `score()` are modelled by `WithBot (WithTop ℚ)` mirroring IEEE division:
  `0.0/0.0` is NaN (caught by `unwrap_or(0.5)`), `v/0.0` is a signed infinity
  for `v ≠ 0`, and finite divisions are exact.
* Functions that can panic or diverge (assert failures, `unwrap` on `None`,
  index out of bounds, the unbounded retry loop in `expand`, potentially
  nonterminating rollouts in `simulate`) return `Option`, with `none` for
  both panic and divergence; recursion is fuel-indexed.
* The thread-local generator used by `rand::random::<usize>()` in `expand`
  is modelled as a stream (`List ℕ`) of draws that is threaded through the
  calls; the caller-supplied `rand::Rng` is an abstract state threaded
  through `do_random_move` exactly as in the source.
* `rayon` fork-join in `select_parallel` is modelled by running the two
  branches in sequence; both receive the same clone of the caller's
  generator state, as in the source (`rng.clone()` for each branch).
  The diagnostic `SearchData` depth counters are omitted; instead each call
  reports the number of `simulate` terminations it performed, which is pure
  instrumentation used to state claims about simulation counts.
-/

/-- Game results, `search_algorithms::board::GameResult`. -/
inductive GameResult : Type where
  | whiteWin : GameResult
  | blackWin : GameResult
  | draw : GameResult
deriving DecidableEq, Repr

/-- Side to move, `search_algorithms::board::Color`. -/
inductive Color : Type where
  | white : Color
  | black : Color
deriving DecidableEq, Repr

/-- The `Score` struct: three outcome counters (`u64` each, modelled as `ℕ`). -/
structure Score : Type where
  whiteWins : ℕ
  blackWins : ℕ
  draws : ℕ
deriving DecidableEq, Repr

/-- Method `Score::new()`. -/
def Score.new : Score := ⟨0, 0, 0⟩

/-- Method `Score::from_game_result`. -/
def Score.fromGameResult (result : GameResult) : Score :=
  match result with
  | .whiteWin => ⟨1, 0, 0⟩
  | .blackWin => ⟨0, 1, 0⟩
  | .draw => ⟨0, 0, 1⟩

/-- Method `Score::add_score`: field-wise addition. -/
def Score.addScore (s other : Score) : Score :=
  ⟨s.whiteWins + other.whiteWins, s.blackWins + other.blackWins, s.draws + other.draws⟩

/-- Method `Score::sum_score`. -/
def Score.sumScore (s : Score) : ℕ :=
  s.whiteWins + s.blackWins + s.draws

/-- The codomain of the `score()` method: a non-NaN `f64`, i.e. a finite
value or one of the two infinities. -/
abbrev EScore : Type := WithBot (WithTop ℚ)

/-- A finite `score()` value. -/
def EScore.fin (q : ℚ) : EScore := ((q : WithTop ℚ) : WithBot (WithTop ℚ))

/-- The `MonteCarloTree` node type.  Fields in source order: `children`,
`score`, `value`, `searches`, `is_fully_expanded`, `maximizing`. -/
inductive MCTree : Type where
  | mk : List (Option MCTree) → Score → ℚ → ℕ → Bool → Bool → MCTree

/-- Field `children`. -/
def MCTree.children : MCTree → List (Option MCTree)
  | .mk cs _ _ _ _ _ => cs

/-- Field `score` (the outcome counters). -/
def MCTree.score : MCTree → Score
  | .mk _ sc _ _ _ _ => sc

/-- Field `value`. -/
def MCTree.value : MCTree → ℚ
  | .mk _ _ v _ _ _ => v

/-- Field `searches` (the visit count). -/
def MCTree.searches : MCTree → ℕ
  | .mk _ _ _ n _ _ => n

/-- Field `is_fully_expanded`. -/
def MCTree.isFullyExpanded : MCTree → Bool
  | .mk _ _ _ _ f _ => f

/-- Field `maximizing`. -/
def MCTree.maximizing : MCTree → Bool
  | .mk _ _ _ _ _ m => m

/-- Assignment `self.children[i] = Some(c)` (in-place slot update). -/
def MCTree.setChild (t : MCTree) (i : ℕ) (c : MCTree) : MCTree :=
  match t with
  | .mk cs sc v n f m => .mk (cs.set i (some c)) sc v n f m

/-- Assignment `self.is_fully_expanded = b`. -/
def MCTree.setFullyExpanded (t : MCTree) (b : Bool) : MCTree :=
  match t with
  | .mk cs sc v n _ m => .mk cs sc v n b m

/-- Method `MonteCarloTree::new_child`: a node with `num_of_children` empty slots
and the negated `maximizing` flag. -/
def MCTree.newChild (t : MCTree) (numOfChildren : ℕ) : MCTree :=
  .mk (List.replicate numOfChildren none) Score.new 0 0 false (!t.maximizing)

/-- Method `MonteCarloTree::add_value`: increment `searches`; add `1.0`, `0.5` or
`0.0` to `value` and bump the matching outcome counter. -/
def MCTree.addValue (t : MCTree) (result : GameResult) : MCTree :=
  match t with
  | .mk cs sc v n f m =>
    match result with
    | .blackWin => .mk cs { sc with blackWins := sc.blackWins + 1 } (v + 1) (n + 1) f m
    | .whiteWin => .mk cs { sc with whiteWins := sc.whiteWins + 1 } v (n + 1) f m
    | .draw => .mk cs { sc with draws := sc.draws + 1 } (v + 1/2) (n + 1) f m

/-- The exact rational quotient `value / searches` (the finite value of
`score()`, meaningful when `searches ≠ 0`). -/
def MCTree.scoreQ (t : MCTree) : ℚ := t.value / (t.searches : ℚ)

/-- The `score()` method:
`NotNaN::new(self.value / self.searches as f64).unwrap_or(NotNaN::new(0.5).unwrap())`.
IEEE semantics of the division by zero: `0.0/0.0` is NaN, so `unwrap_or`
yields `0.5`; `v/0.0` with `v ≠ 0` is a signed infinity (not NaN, hence kept). -/
def MCTree.scoreVal (t : MCTree) : EScore :=
  if t.searches = 0 then
    if t.value = 0 then EScore.fin (1/2)
    else if 0 < t.value then ((⊤ : WithTop ℚ) : EScore)
    else (⊥ : EScore)
  else EScore.fin (t.value / (t.searches : ℚ))

/-- Rust `Iterator::max_by_key`: the maximum, with ties resolved to the
*last* of the equally-maximal elements. -/
def maxByKeyLast {α β : Type*} [LinearOrder β] (key : α → β) (l : List α) : Option α :=
  l.foldl
    (fun acc x =>
      match acc with
      | none => some x
      | some y => if key y ≤ key x then some x else some y)
    none

/-- Rust `Iterator::min_by_key`: the minimum, with ties resolved to the
*first* of the equally-minimal elements. -/
def minByKeyFirst {α β : Type*} [LinearOrder β] (key : α → β) (l : List α) : Option α :=
  l.foldl
    (fun acc x =>
      match acc with
      | none => some x
      | some y => if key x < key y then some x else some y)
    none

/-- Method `MonteCarloTree::best_child`: filter the expanded children, *then*
enumerate (so indices count expanded children only), and take the argmax of
`score()` when maximizing, else the argmin. -/
def MCTree.bestChild (t : MCTree) : Option ℕ :=
  let pairs := (t.children.filterMap id).enum
  if t.maximizing then (maxByKeyLast (fun p => p.2.scoreVal) pairs).map Prod.fst
  else (minByKeyFirst (fun p => p.2.scoreVal) pairs).map Prod.fst

/-- Constant `f64::MAX`, the largest finite double, exactly. -/
noncomputable def f64MAX : ℝ := (2 ^ 53 - 1) * 2 ^ 971

/-- Constant `f64::MIN`, the most negative finite double, exactly. -/
noncomputable def f64MIN : ℝ := -f64MAX

/-- Method `MonteCarloTree::move_selection_value`.  Note that `self` here is the
*child* under consideration, so the `maximizing` flag consulted is the
child's own flag. -/
noncomputable def MCTree.moveSelectionValue (t : MCTree) (totalSearches : ℕ) : ℝ :=
  if t.searches = 0 then
    if t.maximizing then f64MAX else f64MIN
  else
    (if t.maximizing then 1 - (t.scoreQ : ℝ) else (t.scoreQ : ℝ)) +
      Real.sqrt 2 * Real.sqrt (Real.log totalSearches / (t.searches : ℝ))

/-- The child-selection step of `select` (lines 369–374): enumerate the
children (all slots must hold nodes; `select` has checked this before),
take the argmax of `move_selection_value`, and keep its index. -/
noncomputable def MCTree.selectedChildIndex (t : MCTree) (totalSearches : ℕ) : Option ℕ :=
  (maxByKeyLast (fun p : ℕ × MCTree => p.2.moveSelectionValue totalSearches)
    (t.children.filterMap id).enum).map Prod.fst

/-- The external game-position contract (`EvalBoard`) the engine consumes:
side to move, terminal-result query, ordered legal-move enumeration,
reversible move application and a random-move sampler over an abstract
generator state `R`. -/
structure EvalBoard (P M U R : Type) : Type where
  toMove : P → Color
  gameResult : P → Option GameResult
  allLegalMoves : P → List M
  doMove : P → M → P × U
  undoMove : P → U → P
  doRandomMove : P → R → P × R

/-- Sum of the `searches` fields over the child slots (empty slots count 0;
in the source this is computed by unwrapping every slot, which the callers
only do after checking that every slot is filled). -/
def sumChildSearches (cs : List (Option MCTree)) : ℕ :=
  (cs.map (fun o => match o with | some c => c.searches | none => 0)).sum

/-- The slot-picking retry loop of `expand`: draw `rand::random::<usize>()
% len` from the thread-local stream until an empty slot is hit.  Running
out of stream models divergence of the retry loop. -/
def pickSlot (cs : List (Option MCTree)) (len : ℕ) : List ℕ → Option (ℕ × List ℕ)
  | [] => none
  | gNat :: rest =>
    match cs.get? (gNat % len) with
    | some none => some (gNat % len, rest)
    | _ => pickSlot cs len rest

section Engine

variable {P M U R : Type}

/-- Method `MonteCarloTree::simulate`: random rollout to a terminal result on a
private copy of the position.  Returns the result, the advanced generator
and the number of `simulate` terminations (always 1 on success). -/
def simulate (g : EvalBoard P M U R) : ℕ → P → R → Option (GameResult × R × ℕ)
  | 0, _, _ => none
  | fuel + 1, pos, rng =>
    match g.gameResult pos with
    | some result => some (result, rng, 1)
    | none =>
      let pr := g.doRandomMove pos rng
      simulate g fuel pr.1 pr.2

/-- Method `MonteCarloTree::expand`.  On a terminal position: mark fully expanded
and record the result.  Otherwise: check the move/slot count, pick a random
empty slot, apply the move, create the child sized to the resulting
position, simulate from there, store the result into the new child, restore
the position and record the result into `self`. -/
def expand (g : EvalBoard P M U R) (fuel : ℕ) (t : MCTree) (pos : P) (rng : R)
    (grng : List ℕ) : Option (MCTree × GameResult × P × R × List ℕ × ℕ) :=
  match g.gameResult pos with
  | some result => some ((t.setFullyExpanded true).addValue result, result, pos, rng, grng, 0)
  | none =>
    let moves := g.allLegalMoves pos
    if moves.length = t.children.length then
      if moves.length = 0 then none  -- `% 0` in the index draw panics
      else
        match pickSlot t.children moves.length grng with
        | none => none
        | some (idx, grng') =>
          match moves.get? idx with
          | none => none
          | some mv =>
            let pu := g.doMove pos mv
            let childMoves := g.allLegalMoves pu.1
            let newChild := t.newChild childMoves.length
            let t1 := t.setChild idx newChild
            let t2 := if t1.children.all Option.isSome then t1.setFullyExpanded true else t1
            match simulate g fuel pu.1 rng with
            | none => none
            | some (value, rng', k) =>
              let t3 := t2.setChild idx (newChild.addValue value)
              let pos2 := g.undoMove pu.1 pu.2
              some (t3.addValue value, value, pos2, rng', grng', k)
    else none  -- `assert!(moves.len() == self.children.len())`

/-- Method `MonteCarloTree::select`.  Precondition (asserted): fully expanded.
Terminal positions record the result directly.  Otherwise every slot is
unwrapped (the children-sum diagnostic), the child of maximal selection
value is chosen, its move applied, the descent recurses (`select` if the
child is fully expanded, else `expand`), the move is undone and the result
is backpropagated into `self`. -/
noncomputable def select (g : EvalBoard P M U R) :
    ℕ → MCTree → P → R → List ℕ → ℕ → Option (MCTree × GameResult × P × R × List ℕ × ℕ)
  | 0, _, _, _, _, _ => none
  | fuel + 1, t, pos, rng, grng, totalSearches =>
    if t.isFullyExpanded then
      match g.gameResult pos with
      | some result => some (t.addValue result, result, pos, rng, grng, 0)
      | none =>
        -- the children-sum diagnostic unwraps every slot: any empty slot panics
        if t.children.all Option.isSome then
          let moves := g.allLegalMoves pos
          match t.selectedChildIndex totalSearches with
          | none => none  -- `.unwrap()` of `max_by_key` on no children
          | some childIndex =>
            match moves.get? childIndex with
            | none => none  -- `moves[child_index]` out of bounds
            | some mv =>
              match t.children.get? childIndex with
              | some (some child) =>
                let pu := g.doMove pos mv
                match
                  (if child.isFullyExpanded then
                    select g fuel child pu.1 rng grng totalSearches
                  else expand g fuel child pu.1 rng grng) with
                | none => none
                | some (child', value, pos2, rng', grng', k) =>
                  let pos3 := g.undoMove pos2 pu.2
                  some ((t.setChild childIndex child').addValue value, value, pos3, rng', grng', k)
              | _ => none
        else none
    else none  -- `assert!(self.is_fully_expanded, ...)`

/-- The final accumulation step of `select_parallel` (lines 336–338):
`self.searches += value.sum_score(); self.score.add_score(&value);
self.value += black_wins * 1.0 + draws * 0.5`. -/
def MCTree.applyScore (t : MCTree) (value : Score) : MCTree :=
  match t with
  | .mk cs sc v n f m =>
    .mk cs (sc.addScore value) (v + (value.blackWins : ℚ) * 1 + (value.draws : ℚ) * (1/2))
      (n + value.sumScore) f m

/-- Method `MonteCarloTree::select_parallel`.  The children-sum diagnostic (which
unwraps every slot) runs first, then the fully-expanded assertion; terminal
positions record the result directly.  Otherwise the children are ranked by
selection value (stable ascending sort, reversed, first two taken) and the
two chosen children are descended — both branches, always; the thread
budget only decides whether a branch recurses in parallel or sequentially.
The two branch scores are merged and accumulated into `self`. -/
noncomputable def selectParallel (g : EvalBoard P M U R) :
    ℕ → MCTree → P → R → List ℕ → ℕ → ℕ → Option (MCTree × Score × List ℕ × ℕ)
  | 0, _, _, _, _, _, _ => none
  | fuel + 1, t, pos, rng, grng, totalSearches, threads =>
    if t.children.all Option.isSome then
      if t.isFullyExpanded then
        match g.gameResult pos with
        | some result => some (t.addValue result, Score.fromGameResult result, grng, 0)
        | none =>
          let moves := g.allLegalMoves pos
          let vals := (t.children.filterMap id).enum.map
            (fun p => (p.1, p.2.moveSelectionValue totalSearches))
          let sorted := List.insertionSort (fun a b : ℕ × ℝ => a.2 ≤ b.2) vals
          let childIndices := (sorted.reverse.take 2).map Prod.fst
          match childIndices.get? 0, childIndices.get? 1 with
          | some i1, some i2 =>
            if i1 = i2 then none  -- `get_two_mut` panics on equal indices
            else if t.children.length ≤ i1 then none
            else if t.children.length ≤ i2 then none
            else
              -- first forked branch (index `child_indices[0]`); the branch
              -- clones the position and the caller's generator state
              match
                (match moves.get? i1, t.children.get? i1 with
                 | some mv1, some (some child1) =>
                   let p1 := (g.doMove pos mv1).1
                   if child1.isFullyExpanded then
                     if threads < 2 then
                       match select g fuel child1 p1 rng grng totalSearches with
                       | some (c', r, _, _, gr', k) => some (c', Score.fromGameResult r, gr', k)
                       | none => none
                     else selectParallel g fuel child1 p1 rng grng totalSearches (threads / 2)
                   else
                     match expand g fuel child1 p1 rng grng with
                     | some (c', r, _, _, gr', k) => some (c', Score.fromGameResult r, gr', k)
                     | none => none
                 | _, _ => none) with
              | none => none
              | some (c1', s1, grng1, k1) =>
                -- second forked branch (index `child_indices[1]`)
                match
                  (match moves.get? i2, t.children.get? i2 with
                   | some mv2, some (some child2) =>
                     let p2 := (g.doMove pos mv2).1
                     if child2.isFullyExpanded then
                       if threads < 2 then
                         match select g fuel child2 p2 rng grng1 totalSearches with
                         | some (c', r, _, _, gr', k) => some (c', Score.fromGameResult r, gr', k)
                         | none => none
                       else selectParallel g fuel child2 p2 rng grng1 totalSearches (threads / 2)
                     else
                       match expand g fuel child2 p2 rng grng1 with
                       | some (c', r, _, _, gr', k) => some (c', Score.fromGameResult r, gr', k)
                       | none => none
                   | _, _ => none) with
                | none => none
                | some (c2', s2, grng2, k2) =>
                  let value := (Score.new.addScore s1).addScore s2
                  let t' := (t.setChild i1 c1').setChild i2 c2'
                  some (t'.applyScore value, value, grng2, k1 + k2)
          | _, _ => none  -- fewer than two children: `child_indices[1]` panics
      else none  -- `assert!(self.is_fully_expanded, ...)`
    else none

/-- The root-expansion loop of `new_root`: expand until fully expanded,
with the 10000-search panic guard. -/
def newRootLoop (g : EvalBoard P M U R) :
    ℕ → MCTree → P → R → List ℕ → Option (MCTree × P × R × List ℕ)
  | 0, _, _, _, _ => none
  | fuel + 1, t, pos, rng, grng =>
    if t.isFullyExpanded then some (t, pos, rng, grng)
    else
      match expand g fuel t pos rng grng with
      | none => none
      | some (t', _, pos', rng', grng', _) =>
        if 10000 < t'.searches then none  -- the failed-to-fully-expand-root abort
        else newRootLoop g fuel t' pos' rng' grng'

/-- Method `MonteCarloTree::new_root`: a fresh node sized to the legal moves, with
`maximizing` set iff Black is to move, driven to fully expanded. -/
def newRoot (g : EvalBoard P M U R) (fuel : ℕ) (pos : P) (rng : R) (grng : List ℕ) :
    Option (MCTree × P × R × List ℕ) :=
  let root : MCTree :=
    .mk (List.replicate (g.allLegalMoves pos).length none) Score.new 0 0 false
      (match g.toMove pos with | Color.black => true | Color.white => false)
  newRootLoop g fuel root pos rng grng

/-- Tree states reachable by root construction followed by any sequence of
sequential `select` and `expand` calls issued at the root position. -/
inductive Reach (g : EvalBoard P M U R) (p : P) : MCTree → Prop where
  | root : ∀ fuel rng grng t p' rng' grng',
      newRoot g fuel p rng grng = some (t, p', rng', grng') → Reach g p t
  | selStep : ∀ t fuel rng grng total t' r p' rng' grng' k,
      Reach g p t →
      select g fuel t p rng grng total = some (t', r, p', rng', grng', k) → Reach g p t'
  | expStep : ∀ t fuel rng grng t' r p' rng' grng' k,
      Reach g p t →
      expand g fuel t p rng grng = some (t', r, p', rng', grng', k) → Reach g p t'

/-- Coherence of a node with the position it stands for, with visit-count
offset `d` (0 for the root, 1 for nodes created by `expand`, which record
their creation rollout in themselves): visit count equals the outcome-counter
sum, `value` is the exact black-wins-plus-half-draws accumulator, the slot
count matches the legal moves, at non-terminal positions the visit count
exceeds the children's sum by exactly `d`, and every expanded child has the
negated flag, at least one visit, and is itself coherent (offset 1) with the
position after the corresponding move. -/
inductive Coh (g : EvalBoard P M U R) : P → ℕ → MCTree → Prop where
  | mk : ∀ (pos : P) (d : ℕ) (cs : List (Option MCTree)) (sc : Score) (v : ℚ) (n : ℕ)
      (full maxi : Bool),
      n = sc.sumScore →
      v = (sc.blackWins : ℚ) + (sc.draws : ℚ) / 2 →
      cs.length = (g.allLegalMoves pos).length →
      (g.gameResult pos = none → n = sumChildSearches cs + d) →
      (∀ i c, cs.get? i = some (some c) → c.maximizing = !maxi) →
      (∀ i c, cs.get? i = some (some c) → 1 ≤ c.searches) →
      (∀ i c m, cs.get? i = some (some c) → (g.allLegalMoves pos).get? i = some m →
        Coh g (g.doMove pos m).1 1 c) →
      Coh g pos d (.mk cs sc v n full maxi)

/-- Node `s` (standing for position `q`) is a node of the tree rooted at `t`
(standing for position `p`): reflexive-transitive descent through expanded
child slots, tracking positions through the corresponding moves. -/
inductive SubAt (g : EvalBoard P M U R) : P → MCTree → P → MCTree → Prop where
  | refl : ∀ p t, SubAt g p t p t
  | step : ∀ p t i c m q s,
      t.children.get? i = some (some c) →
      (g.allLegalMoves p).get? i = some m →
      SubAt g (g.doMove p m).1 c q s →
      SubAt g p t q s

/-- Strict (at least one descent step) version of `SubAt`. -/
inductive SubAtStrict (g : EvalBoard P M U R) : P → MCTree → P → MCTree → Prop where
  | step : ∀ p t i c m q s,
      t.children.get? i = some (some c) →
      (g.allLegalMoves p).get? i = some m →
      SubAt g (g.doMove p m).1 c q s →
      SubAtStrict g p t q s

end Engine

/-! ## Spec-side and concrete definitions used by the claims -/

/-- The `value` increment recorded for a result: 1 for a black win, ½ for a
draw, 0 for a white win. -/
def resultValue : GameResult → ℚ
  | .blackWin => 1
  | .whiteWin => 0
  | .draw => 1/2

/-- The `EvalBoard` undo contract: undoing an applied move restores the
position exactly. -/
def UndoContract {P M U R : Type} (g : EvalBoard P M U R) : Prop :=
  ∀ (p : P) (m : M), g.undoMove (g.doMove p m).1 (g.doMove p m).2 = p

/-- Modelled from the spec (§4.2): the visited-child selection value as the
spec words it, phrased with the *selecting parent's* maximizing flag:
`adjustedScore + sqrt(2) * sqrt(ln(totalSearches) / childVisitCount)` with
`adjustedScore = childScore` if the parent maximizes else `1 − childScore`,
and `childScore = childValue / childVisitCount`. -/
noncomputable def specSelectionValue (parentMaximizing : Bool) (child : MCTree)
    (totalSearches : ℕ) : ℝ :=
  (if parentMaximizing then ((child.value : ℝ) / (child.searches : ℝ))
    else 1 - ((child.value : ℝ) / (child.searches : ℝ))) +
    Real.sqrt 2 * Real.sqrt (Real.log totalSearches / (child.searches : ℝ))

/-- A leaf that has been visited once with a draw (score ½). -/
def cHalf : MCTree := .mk [] ⟨0, 0, 1⟩ (1/2) 1 false false

/-- A maximizing node with an unexpanded slot 0 and `cHalf` in slot 1. -/
def gapNode : MCTree := .mk [none, some cHalf] ⟨0, 0, 1⟩ (1/2) 1 false true

/-- A maximizing node with two expanded children of equal score. -/
def tieNode : MCTree := .mk [some cHalf, some cHalf] ⟨0, 0, 2⟩ 1 2 true true

/-- Game A: a forced chain `0 → 1 → 2`, position 2 a terminal draw.
Positions are naturals, the undo token is the previous position. -/
def gA : EvalBoard ℕ Unit ℕ Unit where
  toMove := fun _ => Color.white
  gameResult := fun p => if 2 ≤ p then some GameResult.draw else none
  allLegalMoves := fun p => if 2 ≤ p then [] else [()]
  doMove := fun p _ => (p + 1, p)
  undoMove := fun _ u => u
  doRandomMove := fun p r => (p + 1, r)

/-- Game B: two moves from the root 0, both to immediate terminal draws
(positions 1 and 2). -/
def gB : EvalBoard ℕ ℕ ℕ Unit where
  toMove := fun _ => Color.white
  gameResult := fun p => if 1 ≤ p then some GameResult.draw else none
  allLegalMoves := fun p => if 1 ≤ p then [] else [0, 1]
  doMove := fun p m => (m + 1, p)
  undoMove := fun _ u => u
  doRandomMove := fun p r => (p + 1, r)

/-- Game C: like game B but with Black to move at the root (so the root
node maximizes) and white wins at both leaves. -/
def gC : EvalBoard ℕ ℕ ℕ Unit where
  toMove := fun _ => Color.black
  gameResult := fun p => if 1 ≤ p then some GameResult.whiteWin else none
  allLegalMoves := fun p => if 1 ≤ p then [] else [0, 1]
  doMove := fun p m => (m + 1, p)
  undoMove := fun _ u => u
  doRandomMove := fun p r => (p + 1, r)

/-- An unvisited child with its own flag set (as `new_child` produces under
a non-maximizing parent). -/
def unvisitedChild : MCTree := .mk [] Score.new 0 0 false true

/-- A child visited once (the visit a white win), flag set. -/
def visitedChild : MCTree := .mk [] ⟨1, 0, 0⟩ 0 1 false true

/-- A fully expanded non-maximizing node with one unvisited and one visited
child. -/
def mixNode : MCTree := .mk [some unvisitedChild, some visitedChild] ⟨1, 0, 0⟩ 0 1 true false

/-- An unvisited child under a *maximizing* parent: its own flag is
`false`, as `new_child` produces. -/
def x0 : MCTree := .mk [] Score.new 0 0 false false

/-- A child under a maximizing parent visited once (a white win). -/
def x1 : MCTree := .mk [] ⟨1, 0, 0⟩ 0 1 false false

/-- A fully expanded *maximizing* node (Black to move at game C's root)
with the unvisited `x0` in slot 0 and the visited `x1` in slot 1. -/
def tX : MCTree := .mk [some x0, some x1] ⟨1, 0, 0⟩ 0 1 true true

/-- Node `x1` after the `expand` call that `select` performs on it. -/
def x1after : MCTree := .mk [] ⟨2, 0, 0⟩ 0 2 true false

/-- Node `tX` after one `select` call at game C's root. -/
def tXafter : MCTree := .mk [some x0, some x1after] ⟨2, 0, 0⟩ 0 2 true true

/-- Game A: the root's single child after root construction. -/
def cA1 : MCTree := .mk [none] ⟨0, 0, 1⟩ (1/2) 1 false true

/-- Game A: the root after `new_root`. -/
def RA : MCTree := .mk [some cA1] ⟨0, 0, 1⟩ (1/2) 1 true false

/-- Game A: the grandchild created by the first `select`. -/
def cA2 : MCTree := .mk [] ⟨0, 0, 1⟩ (1/2) 1 false false

/-- Game A: the child after the first `select` (now fully expanded). -/
def cA1after : MCTree := .mk [some cA2] ⟨0, 0, 2⟩ 1 2 true true

/-- Game A: the root after the first `select`. -/
def RA1 : MCTree := .mk [some cA1after] ⟨0, 0, 2⟩ 1 2 true false

/-- Game A: the grandchild after the second `select` (terminal evaluation,
no simulation). -/
def cA2after : MCTree := .mk [] ⟨0, 0, 2⟩ 1 2 true false

/-- Game A: the child after the second `select`. -/
def cA1after2 : MCTree := .mk [some cA2after] ⟨0, 0, 3⟩ (3/2) 3 true true

/-- Game A: the root after the second `select`. -/
def RA2 : MCTree := .mk [some cA1after2] ⟨0, 0, 3⟩ (3/2) 3 true false

/-- Game B: each of the root's two children after root construction (both
leaves are immediate draws, so the children are identical). -/
def cB : MCTree := .mk [] ⟨0, 0, 1⟩ (1/2) 1 false true

/-- Game B: the root after `new_root`. -/
def RB : MCTree := .mk [some cB, some cB] ⟨0, 0, 2⟩ 1 2 true false

/-- Game B: a child after being descended once more (terminal draw). -/
def cBafter : MCTree := .mk [] ⟨0, 0, 2⟩ 1 2 true true

/-- Game B: the root after one sequential `select` (one branch visited). -/
def RB1 : MCTree := .mk [some cB, some cBafter] ⟨0, 0, 3⟩ (3/2) 3 true false

/-- Game B: the root after one `select_parallel` with thread budget 1
(both branches visited). -/
def RB2 : MCTree := .mk [some cBafter, some cBafter] ⟨0, 0, 4⟩ 2 4 true false

/-! ## Shape lemmas, coherence accessors and preservation -/

section Lemmas

variable {P M U R : Type} {g : EvalBoard P M U R}

lemma Coh.searches_eq {pos d t} (h : Coh g pos d t) : t.searches = t.score.sumScore := by
  cases h; simpa

lemma Coh.value_eq {pos d t} (h : Coh g pos d t) :
    t.value = (t.score.blackWins : ℚ) + (t.score.draws : ℚ) / 2 := by
  cases h; simpa

lemma Coh.children_length {pos d t} (h : Coh g pos d t) :
    t.children.length = (g.allLegalMoves pos).length := by
  cases h; simpa

lemma Coh.balance {pos d t} (h : Coh g pos d t) (hnt : g.gameResult pos = none) :
    t.searches = sumChildSearches t.children + d := by
  cases h with
  | mk pos d cs sc v n full maxi h1 h2 h3 h4 h5 h6 h7 => simpa using h4 hnt

lemma Coh.child_flag {pos d t i c} (h : Coh g pos d t)
    (hi : t.children.get? i = some (some c)) : c.maximizing = !t.maximizing := by
  cases h with
  | mk pos d cs sc v n full maxi h1 h2 h3 h4 h5 h6 h7 => simpa using h5 i c (by simpa using hi)

lemma Coh.child_visits {pos d t i c} (h : Coh g pos d t)
    (hi : t.children.get? i = some (some c)) : 1 ≤ c.searches := by
  cases h with
  | mk pos d cs sc v n full maxi h1 h2 h3 h4 h5 h6 h7 => exact h6 i c (by simpa using hi)

lemma Coh.child_coh {pos d t i c m} (h : Coh g pos d t)
    (hi : t.children.get? i = some (some c))
    (hm : (g.allLegalMoves pos).get? i = some m) :
    Coh g (g.doMove pos m).1 1 c := by
  cases h with
  | mk pos d cs sc v n full maxi h1 h2 h3 h4 h5 h6 h7 =>
    exact h7 i c m (by simpa using hi) hm

end Lemmas

/-! ## Basic facts about the node operations -/

@[simp] lemma MCTree.children_mk (cs sc v n f m) :
    (MCTree.mk cs sc v n f m).children = cs := rfl

@[simp] lemma MCTree.score_mk (cs sc v n f m) :
    (MCTree.mk cs sc v n f m).score = sc := rfl

@[simp] lemma MCTree.value_mk (cs sc v n f m) :
    (MCTree.mk cs sc v n f m).value = v := rfl

@[simp] lemma MCTree.searches_mk (cs sc v n f m) :
    (MCTree.mk cs sc v n f m).searches = n := rfl

@[simp] lemma MCTree.isFullyExpanded_mk (cs sc v n f m) :
    (MCTree.mk cs sc v n f m).isFullyExpanded = f := rfl

@[simp] lemma MCTree.maximizing_mk (cs sc v n f m) :
    (MCTree.mk cs sc v n f m).maximizing = m := rfl

@[simp] lemma MCTree.addValue_searches (t : MCTree) (r : GameResult) :
    (t.addValue r).searches = t.searches + 1 := by
  cases t <;> cases r <;> rfl

@[simp] lemma MCTree.addValue_children (t : MCTree) (r : GameResult) :
    (t.addValue r).children = t.children := by
  cases t <;> cases r <;> rfl

@[simp] lemma MCTree.addValue_isFullyExpanded (t : MCTree) (r : GameResult) :
    (t.addValue r).isFullyExpanded = t.isFullyExpanded := by
  cases t <;> cases r <;> rfl

@[simp] lemma MCTree.addValue_maximizing (t : MCTree) (r : GameResult) :
    (t.addValue r).maximizing = t.maximizing := by
  cases t <;> cases r <;> rfl

@[simp] lemma MCTree.addValue_value (t : MCTree) (r : GameResult) :
    (t.addValue r).value = t.value + resultValue r := by
  cases t <;> cases r <;> simp [MCTree.addValue, resultValue]

@[simp] lemma MCTree.addValue_sumScore (t : MCTree) (r : GameResult) :
    (t.addValue r).score.sumScore = t.score.sumScore + 1 := by
  cases t <;> cases r <;> simp [MCTree.addValue, Score.sumScore] <;> omega

lemma MCTree.addValue_blackWins_draws (t : MCTree) (r : GameResult) :
    ((t.addValue r).score.blackWins : ℚ) + ((t.addValue r).score.draws : ℚ) / 2 =
      (t.score.blackWins : ℚ) + (t.score.draws : ℚ) / 2 + resultValue r := by
  cases t <;> cases r <;> simp [MCTree.addValue, resultValue] <;> push_cast <;> ring

@[simp] lemma MCTree.setChild_children (t : MCTree) (i : ℕ) (c : MCTree) :
    (t.setChild i c).children = t.children.set i (some c) := by
  cases t <;> rfl

@[simp] lemma MCTree.setChild_score (t : MCTree) (i : ℕ) (c : MCTree) :
    (t.setChild i c).score = t.score := by cases t <;> rfl

@[simp] lemma MCTree.setChild_value (t : MCTree) (i : ℕ) (c : MCTree) :
    (t.setChild i c).value = t.value := by cases t <;> rfl

@[simp] lemma MCTree.setChild_searches (t : MCTree) (i : ℕ) (c : MCTree) :
    (t.setChild i c).searches = t.searches := by cases t <;> rfl

@[simp] lemma MCTree.setChild_isFullyExpanded (t : MCTree) (i : ℕ) (c : MCTree) :
    (t.setChild i c).isFullyExpanded = t.isFullyExpanded := by cases t <;> rfl

@[simp] lemma MCTree.setChild_maximizing (t : MCTree) (i : ℕ) (c : MCTree) :
    (t.setChild i c).maximizing = t.maximizing := by cases t <;> rfl

@[simp] lemma MCTree.setFullyExpanded_children (t : MCTree) (b : Bool) :
    (t.setFullyExpanded b).children = t.children := by cases t <;> rfl

@[simp] lemma MCTree.setFullyExpanded_score (t : MCTree) (b : Bool) :
    (t.setFullyExpanded b).score = t.score := by cases t <;> rfl

@[simp] lemma MCTree.setFullyExpanded_value (t : MCTree) (b : Bool) :
    (t.setFullyExpanded b).value = t.value := by cases t <;> rfl

@[simp] lemma MCTree.setFullyExpanded_searches (t : MCTree) (b : Bool) :
    (t.setFullyExpanded b).searches = t.searches := by cases t <;> rfl

@[simp] lemma MCTree.setFullyExpanded_maximizing (t : MCTree) (b : Bool) :
    (t.setFullyExpanded b).maximizing = t.maximizing := by cases t <;> rfl

@[simp] lemma MCTree.newChild_searches (t : MCTree) (k : ℕ) :
    (t.newChild k).searches = 0 := rfl

@[simp] lemma MCTree.newChild_maximizing (t : MCTree) (k : ℕ) :
    (t.newChild k).maximizing = !t.maximizing := rfl

@[simp] lemma Score.fromGameResult_sumScore (r : GameResult) :
    (Score.fromGameResult r).sumScore = 1 := by
  cases r <;> rfl

@[simp] lemma Score.addScore_sumScore (s other : Score) :
    (s.addScore other).sumScore = s.sumScore + other.sumScore := by
  simp [Score.addScore, Score.sumScore]; omega

@[simp] lemma MCTree.applyScore_searches (t : MCTree) (sc : Score) :
    (t.applyScore sc).searches = t.searches + sc.sumScore := by cases t <;> rfl

@[simp] lemma MCTree.applyScore_children (t : MCTree) (sc : Score) :
    (t.applyScore sc).children = t.children := by cases t <;> rfl

/-- Function `pick_slot` only returns indices of empty slots. -/
lemma pickSlot_spec (cs : List (Option MCTree)) (len : ℕ) :
    ∀ gs idx rest, pickSlot cs len gs = some (idx, rest) → cs.get? idx = some none := by
  intro gs
  induction gs with
  | nil => intro idx rest h; simp [pickSlot] at h
  | cons gNat gs ih =>
    intro idx rest h
    rw [pickSlot] at h
    rcases hg : cs.get? (gNat % len) with - | o
    · rw [hg] at h; exact ih _ _ h
    · cases o with
      | none => rw [hg] at h; cases h; exact hg
      | some c => rw [hg] at h; exact ih _ _ h

lemma sumChildSearches_nil : sumChildSearches [] = 0 := rfl

lemma sumChildSearches_cons (o : Option MCTree) (rest : List (Option MCTree)) :
    sumChildSearches (o :: rest) =
      (match o with | some c => c.searches | none => 0) + sumChildSearches rest := rfl

/-- Summation over child slots after overwriting an empty slot. -/
lemma sumChildSearches_set_none (cs : List (Option MCTree)) :
    ∀ i c, cs.get? i = some none →
      sumChildSearches (cs.set i (some c)) = sumChildSearches cs + c.searches := by
  induction cs with
  | nil => intro i c h; simp at h
  | cons o rest ih =>
    intro i c h
    cases i with
    | zero =>
      cases h
      rw [List.set_cons_zero, sumChildSearches_cons, sumChildSearches_cons]
      show c.searches + sumChildSearches rest = 0 + sumChildSearches rest + c.searches
      omega
    | succ i =>
      simp only [List.get?_cons_succ] at h
      rw [List.set_cons_succ, sumChildSearches_cons, sumChildSearches_cons, ih i c h]
      omega

/-- Summation over child slots after overwriting a filled slot. -/
lemma sumChildSearches_set_some (cs : List (Option MCTree)) :
    ∀ i c0 c, cs.get? i = some (some c0) →
      sumChildSearches (cs.set i (some c)) + c0.searches =
        sumChildSearches cs + c.searches := by
  induction cs with
  | nil => intro i c0 c h; simp at h
  | cons o rest ih =>
    intro i c0 c h
    cases i with
    | zero =>
      cases h
      rw [List.set_cons_zero, sumChildSearches_cons, sumChildSearches_cons]
      show c.searches + sumChildSearches rest + c0.searches =
        c0.searches + sumChildSearches rest + c.searches
      omega
    | succ i =>
      simp only [List.get?_cons_succ] at h
      rw [List.set_cons_succ, sumChildSearches_cons, sumChildSearches_cons]
      have := ih i c0 c h
      omega

section ArgMax

variable {α : Type} {β : Type*} [LinearOrder β]

lemma maxByKeyLast_concat (key : α → β) (l : List α) (x : α) :
    maxByKeyLast key (l ++ [x]) =
      match maxByKeyLast key l with
      | none => some x
      | some y => if key y ≤ key x then some x else some y := by
  unfold maxByKeyLast
  rw [List.foldl_append]
  rfl

lemma minByKeyFirst_concat (key : α → β) (l : List α) (x : α) :
    minByKeyFirst key (l ++ [x]) =
      match minByKeyFirst key l with
      | none => some x
      | some y => if key x < key y then some x else some y := by
  unfold minByKeyFirst
  rw [List.foldl_append]
  rfl

lemma maxByKeyLast_eq_none_iff (key : α → β) (l : List α) :
    maxByKeyLast key l = none ↔ l = [] := by
  induction l using List.reverseRecOn with
  | nil => simp [maxByKeyLast]
  | append_singleton l x ih =>
    rw [maxByKeyLast_concat]
    rcases h : maxByKeyLast key l with - | y <;> simp [h] <;> split <;> simp

lemma minByKeyFirst_eq_none_iff (key : α → β) (l : List α) :
    minByKeyFirst key l = none ↔ l = [] := by
  induction l using List.reverseRecOn with
  | nil => simp [minByKeyFirst]
  | append_singleton l x ih =>
    rw [minByKeyFirst_concat]
    rcases h : minByKeyFirst key l with - | y <;> simp [h] <;> split <;> simp

/-- Characterization of `max_by_key` over an enumerated list: the returned
pair is a position/element pair of the list, its key dominates every key,
and strictly dominates every key occurring later (last-occurrence ties). -/
lemma maxByKeyLast_enum_char (key : α → β) (l : List α) :
    ∀ i a, maxByKeyLast (fun p : ℕ × α => key p.2) l.enum = some (i, a) →
      l.get? i = some a ∧
      ∀ j b, l.get? j = some b → key b ≤ key a ∧ (i < j → key b < key a) := by
  induction l using List.reverseRecOn with
  | nil => intro i a h; simp [maxByKeyLast] at h
  | append_singleton l x ih =>
    intro i a h
    have henum : (l ++ [x]).enum = l.enum ++ [(l.length, x)] := by
      simp [List.enum_append, List.enumFrom]
    rw [henum, maxByKeyLast_concat] at h
    rcases hprev : maxByKeyLast (fun p : ℕ × α => key p.2) l.enum with - | y
    · rw [hprev] at h
      dsimp only at h
      have hl : l = [] := by
        have := (maxByKeyLast_eq_none_iff (fun p : ℕ × α => key p.2) l.enum).mp hprev
        simpa using this
      subst hl
      simp only [Option.some.injEq, Prod.mk.injEq] at h
      obtain ⟨hi, ha⟩ := h
      subst hi; subst ha
      refine ⟨rfl, ?_⟩
      intro j b hj
      rcases j with - | j
      · cases hj; exact ⟨le_refl _, fun hlt => absurd hlt (by simp)⟩
      · simp at hj
    · rw [hprev] at h
      obtain ⟨i0, a0⟩ := y
      dsimp only at h
      have IH := ih i0 a0 hprev
      have hi0lt : i0 < l.length := by
        rcases List.get?_eq_some.mp IH.1 with ⟨hlt, -⟩
        exact hlt
      by_cases hle : key a0 ≤ key x
      · rw [if_pos hle] at h
        simp only [Option.some.injEq, Prod.mk.injEq] at h
        obtain ⟨hi, ha⟩ := h
        subst hi; subst ha
        constructor
        · exact List.get?_concat_length _ _
        · intro j b hj
          have hjlt : j < l.length + 1 := by
            rcases List.get?_eq_some.mp hj with ⟨hlt, -⟩
            simpa using hlt
          rcases Nat.lt_or_ge j l.length with hj' | hj'
          · rw [List.get?_append hj'] at hj
            have := (IH.2 j b hj).1
            exact ⟨le_trans this hle, by omega⟩
          · have hjeq : j = l.length := by omega
            subst hjeq
            rw [List.get?_concat_length] at hj
            cases hj
            exact ⟨le_refl _, by omega⟩
      · rw [if_neg hle] at h
        have hxlt : key x < key a0 := lt_of_not_le hle
        simp only [Option.some.injEq, Prod.mk.injEq] at h
        obtain ⟨hi, ha⟩ := h
        subst hi; subst ha
        constructor
        · rw [List.get?_append hi0lt]; exact IH.1
        · intro j b hj
          have hjlt : j < l.length + 1 := by
            rcases List.get?_eq_some.mp hj with ⟨hlt, -⟩
            simpa using hlt
          rcases Nat.lt_or_ge j l.length with hj' | hj'
          · rw [List.get?_append hj'] at hj
            exact IH.2 j b hj
          · have hjeq : j = l.length := by omega
            subst hjeq
            rw [List.get?_concat_length] at hj
            cases hj
            exact ⟨le_of_lt hxlt, fun _ => hxlt⟩

/-- Characterization of `min_by_key` over an enumerated list: the returned
pair is a position/element pair of the list, its key is dominated by every
key, strictly by every key occurring earlier (first-occurrence ties). -/
lemma minByKeyFirst_enum_char (key : α → β) (l : List α) :
    ∀ i a, minByKeyFirst (fun p : ℕ × α => key p.2) l.enum = some (i, a) →
      l.get? i = some a ∧
      ∀ j b, l.get? j = some b → key a ≤ key b ∧ (j < i → key a < key b) := by
  induction l using List.reverseRecOn with
  | nil => intro i a h; simp [minByKeyFirst] at h
  | append_singleton l x ih =>
    intro i a h
    have henum : (l ++ [x]).enum = l.enum ++ [(l.length, x)] := by
      simp [List.enum_append, List.enumFrom]
    rw [henum, minByKeyFirst_concat] at h
    rcases hprev : minByKeyFirst (fun p : ℕ × α => key p.2) l.enum with - | y
    · rw [hprev] at h
      dsimp only at h
      have hl : l = [] := by
        have := (minByKeyFirst_eq_none_iff (fun p : ℕ × α => key p.2) l.enum).mp hprev
        simpa using this
      subst hl
      simp only [Option.some.injEq, Prod.mk.injEq] at h
      obtain ⟨hi, ha⟩ := h
      subst hi; subst ha
      refine ⟨rfl, ?_⟩
      intro j b hj
      rcases j with - | j
      · cases hj; exact ⟨le_refl _, fun hlt => absurd hlt (by simp)⟩
      · simp at hj
    · rw [hprev] at h
      obtain ⟨i0, a0⟩ := y
      dsimp only at h
      have IH := ih i0 a0 hprev
      have hi0lt : i0 < l.length := by
        rcases List.get?_eq_some.mp IH.1 with ⟨hlt, -⟩
        exact hlt
      by_cases hlt : key x < key a0
      · rw [if_pos hlt] at h
        simp only [Option.some.injEq, Prod.mk.injEq] at h
        obtain ⟨hi, ha⟩ := h
        subst hi; subst ha
        constructor
        · exact List.get?_concat_length _ _
        · intro j b hj
          have hjlt : j < l.length + 1 := by
            rcases List.get?_eq_some.mp hj with ⟨hlt', -⟩
            simpa using hlt'
          rcases Nat.lt_or_ge j l.length with hj' | hj'
          · rw [List.get?_append hj'] at hj
            have := (IH.2 j b hj).1
            exact ⟨le_of_lt (lt_of_lt_of_le hlt this), fun _ => lt_of_lt_of_le hlt this⟩
          · have hjeq : j = l.length := by omega
            subst hjeq
            rw [List.get?_concat_length] at hj
            cases hj
            exact ⟨le_refl _, by omega⟩
      · rw [if_neg hlt] at h
        have hge : key a0 ≤ key x := le_of_not_lt hlt
        simp only [Option.some.injEq, Prod.mk.injEq] at h
        obtain ⟨hi, ha⟩ := h
        subst hi; subst ha
        constructor
        · rw [List.get?_append hi0lt]; exact IH.1
        · intro j b hj
          have hjlt : j < l.length + 1 := by
            rcases List.get?_eq_some.mp hj with ⟨hlt', -⟩
            simpa using hlt'
          rcases Nat.lt_or_ge j l.length with hj' | hj'
          · rw [List.get?_append hj'] at hj
            exact IH.2 j b hj
          · have hjeq : j = l.length := by omega
            subst hjeq
            rw [List.get?_concat_length] at hj
            cases hj
            exact ⟨hge, by omega⟩

end ArgMax

/-- On a list whose slots are all filled, `filterMap id` preserves positions. -/
lemma filterMap_id_get (cs : List (Option MCTree))
    (h : ∀ o ∈ cs, o.isSome = true) :
    ∀ i, (cs.filterMap id).get? i = (cs.get? i).bind id := by
  induction cs with
  | nil => intro i; simp
  | cons o rest ih =>
    intro i
    rcases o with - | a
    · exact absurd (h none (by simp)) (by simp)
    · have h' : ∀ o ∈ rest, o.isSome = true := fun o ho => h o (by simp [ho])
      cases i with
      | zero => simp
      | succ i => simpa using ih h' i

section ShapeLemmas

variable {P M U R : Type} (g : EvalBoard P M U R)

/-- Complete case description of a successful `expand` call: either the
position is terminal (the node is marked fully expanded and the result
recorded), or an empty slot `idx` was drawn, the corresponding move applied,
a rollout run, and a fresh child stored with the result recorded in both the
child and the node. -/
lemma expand_shape {fuel : ℕ} {t : MCTree} {pos : P} {rng : R} {grng : List ℕ}
    {t' : MCTree} {r : GameResult} {p' : P} {rng' : R} {grng' : List ℕ} {k : ℕ}
    (h : expand g fuel t pos rng grng = some (t', r, p', rng', grng', k)) :
    (g.gameResult pos = some r ∧ t' = (t.setFullyExpanded true).addValue r ∧ p' = pos ∧
      rng' = rng ∧ grng' = grng ∧ k = 0) ∨
    (∃ idx mv,
      g.gameResult pos = none ∧
      (g.allLegalMoves pos).length = t.children.length ∧
      t.children.get? idx = some none ∧
      (g.allLegalMoves pos).get? idx = some mv ∧
      simulate g fuel (g.doMove pos mv).1 rng = some (r, rng', k) ∧
      t' =
        ((if (t.setChild idx
              (t.newChild (g.allLegalMoves (g.doMove pos mv).1).length)).children.all
              Option.isSome then
            (t.setChild idx
              (t.newChild (g.allLegalMoves (g.doMove pos mv).1).length)).setFullyExpanded true
          else
            t.setChild idx
              (t.newChild (g.allLegalMoves (g.doMove pos mv).1).length)).setChild idx
          ((t.newChild (g.allLegalMoves (g.doMove pos mv).1).length).addValue r)).addValue r ∧
      p' = g.undoMove (g.doMove pos mv).1 (g.doMove pos mv).2) := by
  unfold expand at h
  rcases hg : g.gameResult pos with - | r0
  · rw [hg] at h
    simp only at h
    split at h
    case isTrue hlen =>
      split at h
      case isTrue => exact absurd h (by simp)
      case isFalse h0 =>
        rcases hpick : pickSlot t.children (g.allLegalMoves pos).length grng with - | ⟨idx, grng0⟩
        · rw [hpick] at h; exact absurd h (by simp)
        · rw [hpick] at h
          dsimp only at h
          rcases hmv : (g.allLegalMoves pos).get? idx with - | mv
          · rw [hmv] at h; exact absurd h (by simp)
          · rw [hmv] at h
            dsimp only at h
            rcases hsim : simulate g fuel (g.doMove pos mv).1 rng with - | ⟨value, rng0, k0⟩
            · rw [hsim] at h; exact absurd h (by simp)
            · rw [hsim] at h
              dsimp only at h
              simp only [Option.some.injEq, Prod.mk.injEq] at h
              obtain ⟨h1, h2, h3, h4, h5, h6⟩ := h
              subst h2; subst h3; subst h4; subst h5; subst h6
              exact Or.inr ⟨idx, mv, rfl, hlen, pickSlot_spec _ _ _ _ _ hpick, hmv,
                hsim, h1.symm, rfl⟩
    case isFalse hlen => exact absurd h (by simp)
  · rw [hg] at h
    simp only [Option.some.injEq, Prod.mk.injEq] at h
    obtain ⟨h1, h2, h3, h4, h5, h6⟩ := h
    subst h2
    exact Or.inl ⟨rfl, h1.symm, h3.symm, h4.symm, h5.symm, h6.symm⟩

end ShapeLemmas

section SelectShape

variable {P M U R : Type} (g : EvalBoard P M U R)

/-- Complete case description of a successful `select` call: the node was
fully expanded, and either the position is terminal (result recorded into
the node) or all slots were filled, the child of maximal selection value
descended into (recursively `select` or `expand`), the move undone and the
result recorded. -/
lemma select_shape {fuel : ℕ} {t : MCTree} {pos : P} {rng : R} {grng : List ℕ}
    {total : ℕ} {t' : MCTree} {r : GameResult} {p' : P} {rng' : R} {grng' : List ℕ} {k : ℕ}
    (h : select g fuel t pos rng grng total = some (t', r, p', rng', grng', k)) :
    t.isFullyExpanded = true ∧
    ((g.gameResult pos = some r ∧ t' = t.addValue r ∧ p' = pos ∧ rng' = rng ∧
        grng' = grng ∧ k = 0) ∨
      (∃ fuel0 childIndex mv child child' pos2,
        fuel = fuel0 + 1 ∧
        g.gameResult pos = none ∧
        t.children.all Option.isSome = true ∧
        t.selectedChildIndex total = some childIndex ∧
        (g.allLegalMoves pos).get? childIndex = some mv ∧
        t.children.get? childIndex = some (some child) ∧
        (if child.isFullyExpanded = true then
            select g fuel0 child (g.doMove pos mv).1 rng grng total
          else expand g fuel0 child (g.doMove pos mv).1 rng grng) =
          some (child', r, pos2, rng', grng', k) ∧
        t' = (t.setChild childIndex child').addValue r ∧
        p' = g.undoMove pos2 (g.doMove pos mv).2)) := by
  cases fuel with
  | zero => exact absurd h (by simp [select])
  | succ fuel0 =>
    simp only [select] at h
    cases hfe : t.isFullyExpanded with
    | false => rw [hfe] at h; exact absurd h (by simp)
    | true =>
      rw [hfe] at h
      simp only [eq_self_iff_true, if_true] at h
      refine ⟨rfl, ?_⟩
      rcases hg : g.gameResult pos with - | r0
      · rw [hg] at h
        try dsimp only at h
        cases hall : t.children.all Option.isSome with
        | false => rw [hall] at h; exact absurd h (by simp)
        | true =>
          rw [hall] at h
          simp only [eq_self_iff_true, if_true] at h
          rcases hsel : t.selectedChildIndex total with - | childIndex
          · rw [hsel] at h; exact absurd h (by simp)
          · rw [hsel] at h
            try dsimp only at h
            rcases hmv : (g.allLegalMoves pos).get? childIndex with - | mv
            · rw [hmv] at h; exact absurd h (by simp)
            · rw [hmv] at h
              try dsimp only at h
              rcases hch : t.children.get? childIndex with - | och
              · rw [hch] at h; exact absurd h (by simp)
              · cases och with
                | none => rw [hch] at h; exact absurd h (by simp)
                | some child =>
                  rw [hch] at h
                  try dsimp only at h
                  rcases hrec :
                      (if child.isFullyExpanded = true then
                        select g fuel0 child (g.doMove pos mv).1 rng grng total
                      else expand g fuel0 child (g.doMove pos mv).1 rng grng) with - | res
                  · rw [hrec] at h; exact absurd h (by simp)
                  · obtain ⟨child', value, pos2, rng0, grng0, k0⟩ := res
                    rw [hrec] at h
                    try dsimp only at h
                    simp only [Option.some.injEq, Prod.mk.injEq] at h
                    obtain ⟨h1, h2, h3, h4, h5, h6⟩ := h
                    subst h2; subst h3; subst h4; subst h5; subst h6
                    exact Or.inr ⟨fuel0, childIndex, mv, child, child', pos2, rfl, rfl,
                      rfl, rfl, hmv, hch, hrec, h1.symm, rfl⟩
      · rw [hg] at h
        try dsimp only at h
        simp only [Option.some.injEq, Prod.mk.injEq] at h
        obtain ⟨h1, h2, h3, h4, h5, h6⟩ := h
        subst h2
        exact Or.inl ⟨rfl, h1.symm, h3.symm, h4.symm, h5.symm, h6.symm⟩

/-- A successful `select` increments the visit count of the called node by
exactly one. -/
lemma select_searches_succ {fuel : ℕ} {t : MCTree} {pos : P} {rng : R} {grng : List ℕ}
    {total : ℕ} {t' : MCTree} {r : GameResult} {p' : P} {rng' : R} {grng' : List ℕ} {k : ℕ}
    (h : select g fuel t pos rng grng total = some (t', r, p', rng', grng', k)) :
    t'.searches = t.searches + 1 := by
  rcases (select_shape g h).2 with ⟨h1, ht', h3⟩ |
    ⟨f0, ci, mv, ch, ch', p2, h1, h2, h3, h4, h5, h6, h7, ht', h9⟩
  · subst ht'; simp
  · subst ht'; simp

/-- A successful `expand` increments the visit count of the called node by
exactly one. -/
lemma expand_searches_succ {fuel : ℕ} {t : MCTree} {pos : P} {rng : R} {grng : List ℕ}
    {t' : MCTree} {r : GameResult} {p' : P} {rng' : R} {grng' : List ℕ} {k : ℕ}
    (h : expand g fuel t pos rng grng = some (t', r, p', rng', grng', k)) :
    t'.searches = t.searches + 1 := by
  rcases expand_shape g h with ⟨h1, ht', h3⟩ | ⟨idx, mv, h1, h2, h3, h4, h5, ht', h8⟩
  · subst ht'; simp
  · subst ht'; simp [apply_ite MCTree.searches]

/-- Neither `select` nor `expand` changes the `maximizing` flag of the
called node. -/
lemma select_maximizing {fuel : ℕ} {t : MCTree} {pos : P} {rng : R} {grng : List ℕ}
    {total : ℕ} {t' : MCTree} {r : GameResult} {p' : P} {rng' : R} {grng' : List ℕ} {k : ℕ}
    (h : select g fuel t pos rng grng total = some (t', r, p', rng', grng', k)) :
    t'.maximizing = t.maximizing := by
  rcases (select_shape g h).2 with ⟨h1, ht', h3⟩ |
    ⟨f0, ci, mv, ch, ch', p2, h1, h2, h3, h4, h5, h6, h7, ht', h9⟩
  · subst ht'; simp
  · subst ht'; simp

lemma expand_maximizing {fuel : ℕ} {t : MCTree} {pos : P} {rng : R} {grng : List ℕ}
    {t' : MCTree} {r : GameResult} {p' : P} {rng' : R} {grng' : List ℕ} {k : ℕ}
    (h : expand g fuel t pos rng grng = some (t', r, p', rng', grng', k)) :
    t'.maximizing = t.maximizing := by
  rcases expand_shape g h with ⟨h1, ht', h3⟩ | ⟨idx, mv, h1, h2, h3, h4, h5, ht', h8⟩
  · subst ht'; simp
  · subst ht'; simp [apply_ite MCTree.maximizing]

end SelectShape

section Preservation

variable {P M U R : Type} {g : EvalBoard P M U R}

/-- Constructor for `Coh` phrased through the field accessors. -/
lemma Coh.intro' {pos : P} {d : ℕ} (t : MCTree)
    (h1 : t.searches = t.score.sumScore)
    (h2 : t.value = (t.score.blackWins : ℚ) + (t.score.draws : ℚ) / 2)
    (h3 : t.children.length = (g.allLegalMoves pos).length)
    (h4 : g.gameResult pos = none → t.searches = sumChildSearches t.children + d)
    (h5 : ∀ i c, t.children.get? i = some (some c) → c.maximizing = !t.maximizing)
    (h6 : ∀ i c, t.children.get? i = some (some c) → 1 ≤ c.searches)
    (h7 : ∀ i c m, t.children.get? i = some (some c) →
      (g.allLegalMoves pos).get? i = some m → Coh g (g.doMove pos m).1 1 c) :
    Coh g pos d t := by
  cases t
  exact Coh.mk _ _ _ _ _ _ _ _ (by simpa using h1) (by simpa using h2) (by simpa using h3)
    (by simpa using h4) (by simpa using h5) (by simpa using h6) (by simpa using h7)

lemma sumChildSearches_replicate_none (n : ℕ) :
    sumChildSearches (List.replicate n (none : Option MCTree)) = 0 := by
  induction n with
  | zero => rfl
  | succ n ih => rw [List.replicate_succ, sumChildSearches_cons, ih]

lemma replicate_none_no_child {n i : ℕ} {c : MCTree}
    (h : (List.replicate n (none : Option MCTree)).get? i = some (some c)) : False := by
  have hmem := List.get?_mem h
  have := List.eq_of_mem_replicate hmem
  simp at this

/-- Recording a result at a terminal position preserves coherence. -/
lemma coh_addValue_terminal {pos : P} {d : ℕ} {t : MCTree} {r : GameResult}
    (h : Coh g pos d t) (hterm : g.gameResult pos = some r) :
    Coh g pos d (t.addValue r) := by
  apply Coh.intro'
  · rw [MCTree.addValue_searches, MCTree.addValue_sumScore, h.searches_eq]
  · rw [MCTree.addValue_value, MCTree.addValue_blackWins_draws, h.value_eq]
  · rw [MCTree.addValue_children, h.children_length]
  · intro hn; rw [hterm] at hn; cases hn
  · intro i c hi
    rw [MCTree.addValue_children] at hi
    rw [MCTree.addValue_maximizing]
    exact h.child_flag hi
  · intro i c hi
    rw [MCTree.addValue_children] at hi
    exact h.child_visits hi
  · intro i c m hi hm
    rw [MCTree.addValue_children] at hi
    exact h.child_coh hi hm

/-- Same, through the `is_fully_expanded` update of `expand`'s terminal
branch. -/
lemma coh_setFull_addValue_terminal {pos : P} {d : ℕ} {t : MCTree} {r : GameResult}
    (h : Coh g pos d t) (hterm : g.gameResult pos = some r) :
    Coh g pos d ((t.setFullyExpanded true).addValue r) := by
  have hfull : Coh g pos d (t.setFullyExpanded true) := by
    apply Coh.intro'
    · rw [MCTree.setFullyExpanded_searches, MCTree.setFullyExpanded_score, h.searches_eq]
    · rw [MCTree.setFullyExpanded_value, MCTree.setFullyExpanded_score, h.value_eq]
    · rw [MCTree.setFullyExpanded_children, h.children_length]
    · intro hn
      rw [MCTree.setFullyExpanded_searches, MCTree.setFullyExpanded_children]
      exact h.balance hn
    · intro i c hi
      rw [MCTree.setFullyExpanded_children] at hi
      rw [MCTree.setFullyExpanded_maximizing]
      exact h.child_flag hi
    · intro i c hi
      rw [MCTree.setFullyExpanded_children] at hi
      exact h.child_visits hi
    · intro i c m hi hm
      rw [MCTree.setFullyExpanded_children] at hi
      exact h.child_coh hi hm
  exact coh_addValue_terminal hfull hterm

/-- The node stored by `expand` for a fresh child is coherent with the
position reached by the chosen move (offset 1: its creation rollout is
recorded in itself). -/
lemma coh_new_child {pos : P} {t : MCTree} {mv : M} {r : GameResult} :
    Coh g (g.doMove pos mv).1 1
      ((t.newChild (g.allLegalMoves (g.doMove pos mv).1).length).addValue r) := by
  apply Coh.intro'
  · cases r <;> rfl
  · cases r <;> simp [MCTree.newChild, MCTree.addValue, Score.new] <;> norm_num
  · rw [MCTree.addValue_children]
    simp [MCTree.newChild]
  · intro _
    rw [MCTree.addValue_searches, MCTree.addValue_children]
    simp [MCTree.newChild, sumChildSearches_replicate_none]
  · intro i c hi
    rw [MCTree.addValue_children] at hi
    exact absurd hi (fun hh => replicate_none_no_child hh)
  · intro i c hi
    rw [MCTree.addValue_children] at hi
    exact absurd hi (fun hh => replicate_none_no_child hh)
  · intro i c m hi hm
    rw [MCTree.addValue_children] at hi
    exact absurd hi (fun hh => replicate_none_no_child hh)

/-- A successful `expand` preserves coherence of the called node. -/
lemma expand_coh {fuel : ℕ} {t : MCTree} {pos : P} {rng : R} {grng : List ℕ} {d : ℕ}
    {t' : MCTree} {r : GameResult} {p' : P} {rng' : R} {grng' : List ℕ} {k : ℕ}
    (hcoh : Coh g pos d t)
    (h : expand g fuel t pos rng grng = some (t', r, p', rng', grng', k)) :
    Coh g pos d t' := by
  rcases expand_shape g h with ⟨hterm, ht', h3⟩ | ⟨idx, mv, hg, hlen, hslot, hmv, hsim, ht', hp'⟩
  · subst ht'; exact coh_setFull_addValue_terminal hcoh hterm
  · subst ht'
    have hidx : idx < t.children.length := by
      rcases List.get?_eq_some.mp hslot with ⟨hlt, -⟩
      exact hlt
    -- name the freshly created child
    set nc := t.newChild (g.allLegalMoves (g.doMove pos mv).1).length with hnc
    set t2 := (if (t.setChild idx nc).children.all Option.isSome then
        (t.setChild idx nc).setFullyExpanded true
      else t.setChild idx nc) with ht2
    have h2children : t2.children = t.children.set idx (some nc) := by
      rw [ht2]; split <;> simp
    have h2score : t2.score = t.score := by rw [ht2]; split <;> simp
    have h2value : t2.value = t.value := by rw [ht2]; split <;> simp
    have h2searches : t2.searches = t.searches := by rw [ht2]; split <;> simp
    have h2max : t2.maximizing = t.maximizing := by rw [ht2]; split <;> simp
    have hchildren : (t2.setChild idx (nc.addValue r)).children =
        t.children.set idx (some (nc.addValue r)) := by
      rw [MCTree.setChild_children, h2children, List.set_set]
    apply Coh.intro'
    · rw [MCTree.addValue_searches, MCTree.addValue_sumScore, MCTree.setChild_searches,
        MCTree.setChild_score, h2searches, h2score, hcoh.searches_eq]
    · rw [MCTree.addValue_value, MCTree.addValue_blackWins_draws, MCTree.setChild_value,
        MCTree.setChild_score, h2value, h2score, hcoh.value_eq]
    · rw [MCTree.addValue_children, hchildren, List.length_set, hcoh.children_length]
    · intro hn
      rw [MCTree.addValue_searches, MCTree.addValue_children, hchildren,
        MCTree.setChild_searches, h2searches,
        sumChildSearches_set_none t.children idx _ hslot, hcoh.balance hn]
      have : (nc.addValue r).searches = 1 := by rw [MCTree.addValue_searches]; rfl
      omega
    · intro i c hi
      rw [MCTree.addValue_children, hchildren] at hi
      rw [MCTree.addValue_maximizing, MCTree.setChild_maximizing, h2max]
      by_cases hie : idx = i
      · subst hie
        rw [List.get?_set_eq_of_lt _ hidx] at hi
        cases hi
        rw [MCTree.addValue_maximizing, hnc, MCTree.newChild_maximizing]
      · rw [List.get?_set_ne _ _ hie] at hi
        exact hcoh.child_flag hi
    · intro i c hi
      rw [MCTree.addValue_children, hchildren] at hi
      by_cases hie : idx = i
      · subst hie
        rw [List.get?_set_eq_of_lt _ hidx] at hi
        cases hi
        rw [MCTree.addValue_searches]
        omega
      · rw [List.get?_set_ne _ _ hie] at hi
        exact hcoh.child_visits hi
    · intro i c m hi hm
      rw [MCTree.addValue_children, hchildren] at hi
      by_cases hie : idx = i
      · subst hie
        rw [List.get?_set_eq_of_lt _ hidx] at hi
        cases hi
        rw [hmv] at hm
        cases hm
        exact coh_new_child
      · rw [List.get?_set_ne _ _ hie] at hi
        exact hcoh.child_coh hi hm

/-- A successful sequential `select` preserves coherence of the called
node. -/
lemma select_coh : ∀ (fuel : ℕ) {t : MCTree} {pos : P} {rng : R} {grng : List ℕ}
    {total : ℕ} {d : ℕ} {t' : MCTree} {r : GameResult} {p' : P} {rng' : R}
    {grng' : List ℕ} {k : ℕ},
    Coh g pos d t →
    select g fuel t pos rng grng total = some (t', r, p', rng', grng', k) →
    Coh g pos d t' := by
  intro fuel
  induction fuel with
  | zero =>
    intro t pos rng grng total d t' r p' rng' grng' k hcoh h
    exact absurd h (by simp [select])
  | succ fuel0 ih =>
    intro t pos rng grng total d t' r p' rng' grng' k hcoh h
    rcases (select_shape g h).2 with ⟨hterm, ht', h3⟩ |
      ⟨fuel1, childIndex, mv, child, child', pos2, hfuel, hg, hall, hsel, hmv, hch, hrec, ht', hp'⟩
    · subst ht'; exact coh_addValue_terminal hcoh hterm
    · subst ht'
      have hfuel1 : fuel1 = fuel0 := by omega
      subst hfuel1
      have hcc : Coh g (g.doMove pos mv).1 1 child := hcoh.child_coh hch hmv
      have hidx : childIndex < t.children.length := by
        rcases List.get?_eq_some.mp hch with ⟨hlt, -⟩
        exact hlt
      have hchild' : Coh g (g.doMove pos mv).1 1 child' ∧
          child'.searches = child.searches + 1 ∧ child'.maximizing = child.maximizing := by
        by_cases hf : child.isFullyExpanded = true
        · rw [if_pos hf] at hrec
          exact ⟨ih hcc hrec, select_searches_succ g hrec, select_maximizing g hrec⟩
        · rw [if_neg hf] at hrec
          exact ⟨expand_coh hcc hrec, expand_searches_succ g hrec, expand_maximizing g hrec⟩
      obtain ⟨hc'coh, hc'searches, hc'max⟩ := hchild'
      apply Coh.intro'
      · rw [MCTree.addValue_searches, MCTree.addValue_sumScore, MCTree.setChild_searches,
          MCTree.setChild_score, hcoh.searches_eq]
      · rw [MCTree.addValue_value, MCTree.addValue_blackWins_draws, MCTree.setChild_value,
          MCTree.setChild_score, hcoh.value_eq]
      · rw [MCTree.addValue_children, MCTree.setChild_children, List.length_set,
          hcoh.children_length]
      · intro hn
        rw [MCTree.addValue_searches, MCTree.addValue_children, MCTree.setChild_children,
          MCTree.setChild_searches, hcoh.balance hn]
        have := sumChildSearches_set_some t.children childIndex child child' hch
        omega
      · intro i c hi
        rw [MCTree.addValue_children, MCTree.setChild_children] at hi
        rw [MCTree.addValue_maximizing, MCTree.setChild_maximizing]
        by_cases hie : childIndex = i
        · subst hie
          rw [List.get?_set_eq_of_lt _ hidx] at hi
          cases hi
          rw [hc'max]
          exact hcoh.child_flag hch
        · rw [List.get?_set_ne _ _ hie] at hi
          exact hcoh.child_flag hi
      · intro i c hi
        rw [MCTree.addValue_children, MCTree.setChild_children] at hi
        by_cases hie : childIndex = i
        · subst hie
          rw [List.get?_set_eq_of_lt _ hidx] at hi
          cases hi
          omega
        · rw [List.get?_set_ne _ _ hie] at hi
          exact hcoh.child_visits hi
      · intro i c m hi hm
        rw [MCTree.addValue_children, MCTree.setChild_children] at hi
        by_cases hie : childIndex = i
        · subst hie
          rw [List.get?_set_eq_of_lt _ hidx] at hi
          cases hi
          rw [hmv] at hm
          cases hm
          exact hc'coh
        · rw [List.get?_set_ne _ _ hie] at hi
          exact hcoh.child_coh hi hm

end Preservation

section Restoration

variable {P M U R : Type} {g : EvalBoard P M U R}

/-- Function `expand` returns the position it was given (the applied move is undone
before returning, and `simulate` runs on a private copy). -/
lemma expand_pos_eq (hc : UndoContract g) {fuel : ℕ} {t : MCTree} {pos : P} {rng : R}
    {grng : List ℕ} {t' : MCTree} {r : GameResult} {p' : P} {rng' : R} {grng' : List ℕ}
    {k : ℕ} (h : expand g fuel t pos rng grng = some (t', r, p', rng', grng', k)) :
    p' = pos := by
  rcases expand_shape g h with ⟨-, -, hp', -⟩ | ⟨idx, mv, -, -, -, -, -, -, hp'⟩
  · exact hp'
  · rw [hp', hc]

/-- Sequential `select` returns the position it was given: every move
applied along the descent is undone. -/
lemma select_pos_eq (hc : UndoContract g) : ∀ (fuel : ℕ) {t : MCTree} {pos : P} {rng : R}
    {grng : List ℕ} {total : ℕ} {t' : MCTree} {r : GameResult} {p' : P} {rng' : R}
    {grng' : List ℕ} {k : ℕ},
    select g fuel t pos rng grng total = some (t', r, p', rng', grng', k) → p' = pos := by
  intro fuel
  induction fuel with
  | zero =>
    intro t pos rng grng total t' r p' rng' grng' k h
    exact absurd h (by simp [select])
  | succ fuel0 ih =>
    intro t pos rng grng total t' r p' rng' grng' k h
    rcases (select_shape g h).2 with ⟨-, -, hp', -⟩ |
      ⟨fuel1, childIndex, mv, child, child', pos2, hfuel, -, -, -, -, -, hrec, -, hp'⟩
    · exact hp'
    · have hfuel1 : fuel1 = fuel0 := by omega
      subst hfuel1
      have hpos2 : pos2 = (g.doMove pos mv).1 := by
        by_cases hf : child.isFullyExpanded = true
        · rw [if_pos hf] at hrec; exact ih hrec
        · rw [if_neg hf] at hrec; exact expand_pos_eq hc hrec
      rw [hp', hpos2, hc]

/-- The root-expansion loop preserves coherence and the position. -/
lemma newRootLoop_coh (hc : UndoContract g) : ∀ (fuel : ℕ) {t : MCTree} {pos : P}
    {rng : R} {grng : List ℕ} {t' : MCTree} {p' : P} {rng' : R} {grng' : List ℕ},
    Coh g pos 0 t →
    newRootLoop g fuel t pos rng grng = some (t', p', rng', grng') →
    Coh g pos 0 t' ∧ p' = pos := by
  intro fuel
  induction fuel with
  | zero =>
    intro t pos rng grng t' p' rng' grng' hcoh h
    exact absurd h (by simp [newRootLoop])
  | succ fuel0 ih =>
    intro t pos rng grng t' p' rng' grng' hcoh h
    rw [newRootLoop] at h
    by_cases hfe : t.isFullyExpanded
    · rw [if_pos hfe] at h
      simp only [Option.some.injEq, Prod.mk.injEq] at h
      obtain ⟨h1, h2, h3, h4⟩ := h
      subst h1; subst h2
      exact ⟨hcoh, rfl⟩
    · rw [if_neg hfe] at h
      rcases hexp : expand g fuel0 t pos rng grng with - | res
      · rw [hexp] at h; exact absurd h (by simp)
      · obtain ⟨t1, r1, pos1, rng1, grng1, k1⟩ := res
        rw [hexp] at h
        dsimp only at h
        split at h
        · exact absurd h (by simp)
        · have hpos1 : pos1 = pos := expand_pos_eq hc hexp
          subst hpos1
          exact ih (expand_coh hcoh hexp) h

/-- Function `new_root` produces a coherent tree (offset 0) for the given position
and leaves the position unchanged. -/
lemma newRoot_coh (hc : UndoContract g) {fuel : ℕ} {pos : P} {rng : R} {grng : List ℕ}
    {t : MCTree} {p' : P} {rng' : R} {grng' : List ℕ}
    (h : newRoot g fuel pos rng grng = some (t, p', rng', grng')) :
    Coh g pos 0 t ∧ p' = pos := by
  have hinit : Coh g pos 0
      (MCTree.mk (List.replicate (g.allLegalMoves pos).length none) Score.new 0 0 false
        (match g.toMove pos with | Color.black => true | Color.white => false)) := by
    apply Coh.intro'
    · rfl
    · simp [Score.new]
    · simp
    · intro _; simp [sumChildSearches_replicate_none]
    · intro i c hi; exact absurd (by simpa using hi) (fun hh => replicate_none_no_child hh)
    · intro i c hi; exact absurd (by simpa using hi) (fun hh => replicate_none_no_child hh)
    · intro i c m hi hm; exact absurd (by simpa using hi) (fun hh => replicate_none_no_child hh)
  exact newRootLoop_coh hc fuel hinit h

/-- Every reachable tree state is coherent with the root position. -/
lemma reach_coh (hc : UndoContract g) {p : P} {t : MCTree} (h : Reach g p t) :
    Coh g p 0 t := by
  induction h with
  | root fuel rng grng t p' rng' grng' hroot => exact (newRoot_coh hc hroot).1
  | selStep t fuel rng grng total t' r p' rng' grng' k hre hsel ih => exact select_coh fuel ih hsel
  | expStep t fuel rng grng t' r p' rng' grng' k hre hexp ih => exact expand_coh ih hexp

/-- Coherence descends through the tree: any node reached by following
expanded slots is coherent with its own position, with offset 1 below the
root. -/
lemma coh_of_subAt {p : P} {t : MCTree} {q : P} {s : MCTree} {d : ℕ}
    (hsub : SubAt g p t q s) (hcoh : Coh g p d t) :
    Coh g q d s ∨ Coh g q 1 s := by
  induction hsub generalizing d with
  | refl p t => exact Or.inl hcoh
  | step p t i c m q s hi hm hsub ih =>
    have hcc : Coh g (g.doMove p m).1 1 c := hcoh.child_coh hi hm
    rcases ih hcc with h | h
    · exact Or.inr h
    · exact Or.inr h

lemma coh_of_subAtStrict {p : P} {t : MCTree} {q : P} {s : MCTree} {d : ℕ}
    (hsub : SubAtStrict g p t q s) (hcoh : Coh g p d t) :
    Coh g q 1 s := by
  induction hsub with
  | step i c m q' s' hi hm hsub =>
    have hcc : Coh g (g.doMove p m).1 1 c := hcoh.child_coh hi hm
    rcases coh_of_subAt hsub hcc with h | h
    · exact h
    · exact h

end Restoration

/-! ## Spec-side definitions used for refinement comparisons -/

/-! ## Claim theorems -/

/-- Claim C3 (confirmed).  For a visited child (`visitCount > 0`) whose
`maximizing` flag is the negation of the selecting parent's flag (as
`new_child` guarantees), the selection value computed by
`move_selection_value` equals the spec's formula
`adjustedScore + sqrt(2) * sqrt(ln(totalSearches) / childVisitCount)`,
where `childScore = childValue / childVisitCount` and `adjustedScore` is
`childScore` when the parent maximizes and `1 − childScore` otherwise.
`totalSearches` is the value passed down unchanged from the top of the
iteration (the embedding of `select` threads it through every recursive
call verbatim). -/
theorem c3_selection_value_formula (child : MCTree) (parentMaximizing : Bool)
    (total : ℕ) (hflag : child.maximizing = !parentMaximizing)
    (hs : child.searches ≠ 0) (htot : 1 ≤ total) :
    child.moveSelectionValue total = specSelectionValue parentMaximizing child total := by
  cases parentMaximizing <;>
    simp [MCTree.moveSelectionValue, specSelectionValue, hs, hflag, MCTree.scoreQ,
      Rat.cast_div]

/-- Witness for C3 at a concrete child (one visit, value ½, child flag
`true`, parent flag `false`, two total searches). -/
theorem c3_witness :
    (MCTree.mk [none] ⟨0, 0, 1⟩ (1/2) 1 false true).moveSelectionValue 2 =
      specSelectionValue false (MCTree.mk [none] ⟨0, 0, 1⟩ (1/2) 1 false true) 2 :=
  c3_selection_value_formula _ false 2 rfl (by decide) (by decide)

/-- Claim C7 (confirmed).  `add_value` increments `visitCount` by exactly 1,
bumps exactly the outcome counter matching the result, adds 1.0 to `value`
for a black (second-player) win, 0.5 for a draw and 0.0 for a white
(first-player) win, and changes no other field of the node. -/
theorem c7_add_value (t : MCTree) (r : GameResult) :
    (t.addValue r).searches = t.searches + 1 ∧
    (t.addValue r).value =
      t.value + (if r = .blackWin then 1 else if r = .draw then 1/2 else 0) ∧
    (t.addValue r).score.whiteWins = t.score.whiteWins + (if r = .whiteWin then 1 else 0) ∧
    (t.addValue r).score.blackWins = t.score.blackWins + (if r = .blackWin then 1 else 0) ∧
    (t.addValue r).score.draws = t.score.draws + (if r = .draw then 1 else 0) ∧
    (t.addValue r).children = t.children ∧
    (t.addValue r).isFullyExpanded = t.isFullyExpanded ∧
    (t.addValue r).maximizing = t.maximizing := by
  cases t <;> cases r <;> simp [MCTree.addValue]

/-- Claim C8 (confirmed).  For every node whose accumulators are consistent
(zero visits force a zero value, which holds for every node the program
builds: both are only ever changed together), `score()` returns the exact
quotient `value / visitCount` when `visitCount > 0` and the neutral 0.5
when `visitCount == 0`; in both cases the result is a finite value, never a
division error or an infinity. -/
theorem c8_score_neutral (t : MCTree) (h : t.searches = 0 → t.value = 0) :
    (t.searches = 0 → t.scoreVal = EScore.fin (1/2)) ∧
    (0 < t.searches → t.scoreVal = EScore.fin (t.value / (t.searches : ℚ))) ∧
    ∃ q : ℚ, t.scoreVal = EScore.fin q := by
  by_cases hs : t.searches = 0
  · refine ⟨fun _ => ?_, fun hlt => absurd hs (by omega), ⟨1/2, ?_⟩⟩ <;>
      simp [MCTree.scoreVal, hs, h hs]
  · refine ⟨fun heq => absurd heq hs, fun _ => ?_, ⟨t.value / (t.searches : ℚ), ?_⟩⟩ <;>
      simp [MCTree.scoreVal, hs]

/-- Witness for C8 at concrete nodes: an unvisited node scores the neutral
½, a visited node scores its exact average. -/
theorem c8_witness :
    ((MCTree.mk [] ⟨0, 0, 0⟩ 0 0 false false).searches = 0 →
      (MCTree.mk [] ⟨0, 0, 0⟩ 0 0 false false).scoreVal = EScore.fin (1/2)) ∧
    (0 < (MCTree.mk [] ⟨0, 0, 0⟩ 0 0 false false).searches →
      (MCTree.mk [] ⟨0, 0, 0⟩ 0 0 false false).scoreVal =
        EScore.fin ((MCTree.mk [] ⟨0, 0, 0⟩ 0 0 false false).value /
          ((MCTree.mk [] ⟨0, 0, 0⟩ 0 0 false false).searches : ℚ))) ∧
    ∃ q : ℚ, (MCTree.mk [] ⟨0, 0, 0⟩ 0 0 false false).scoreVal = EScore.fin q :=
  c8_score_neutral (MCTree.mk [] ⟨0, 0, 0⟩ 0 0 false false) (fun _ => rfl)

lemma gapNode_bestChild : gapNode.bestChild = some 0 := by
  simp [MCTree.bestChild, gapNode, maxByKeyLast, List.enum, List.enumFrom]

lemma tieNode_bestChild : tieNode.bestChild = some 1 := by
  simp [MCTree.bestChild, tieNode, maxByKeyLast, List.enum, List.enumFrom]

/-- Claim C2 (counterexample).  `best_child` enumerates *after* filtering the
unexpanded slots, so on `gapNode` (slot 0 empty, the only expanded child in
slot 1) it returns index 0 — which is not the child's position in the
children sequence (slot 0 holds no node; the child sits in slot 1).
Moreover on `tieNode` (two expanded children with equal scores, maximizing)
it returns index 1, the *last* of the tied children, not the first. -/
theorem c2_counterexample :
    gapNode.bestChild = some 0 ∧
    gapNode.children.get? 0 = some none ∧
    gapNode.children.get? 1 = some (some cHalf) ∧
    tieNode.bestChild = some 1 ∧
    tieNode.children.get? 0 = some (some cHalf) ∧
    (cHalf.scoreVal = cHalf.scoreVal) :=
  ⟨gapNode_bestChild, rfl, rfl, tieNode_bestChild, rfl, rfl⟩

/-- Claim C2 (amended).  `best_child` returns `none` iff no child slot is
expanded; otherwise it returns the position of the best child *within the
subsequence of expanded children* (not within the full slot sequence): the
child of maximum `score()` when `maximizing` with ties broken by *last*
occurrence, and of minimum `score()` otherwise with ties broken by first
occurrence. -/
theorem c2_amended (t : MCTree) :
    (t.bestChild = none ↔ t.children.filterMap id = []) ∧
    (∀ i, t.bestChild = some i →
      ∃ a, (t.children.filterMap id).get? i = some a ∧
        (t.maximizing = true →
          ∀ j b, (t.children.filterMap id).get? j = some b →
            b.scoreVal ≤ a.scoreVal ∧ (i < j → b.scoreVal < a.scoreVal)) ∧
        (t.maximizing = false →
          ∀ j b, (t.children.filterMap id).get? j = some b →
            a.scoreVal ≤ b.scoreVal ∧ (j < i → a.scoreVal < b.scoreVal))) := by
  cases hmax : t.maximizing with
  | true =>
    constructor
    · rw [MCTree.bestChild, if_pos hmax]
      simp only [Option.map_eq_none']
      rw [maxByKeyLast_eq_none_iff]
      simp
    · intro i hi
      rw [MCTree.bestChild, if_pos hmax] at hi
      rcases hres : maxByKeyLast (fun p : ℕ × MCTree => p.2.scoreVal)
          (t.children.filterMap id).enum with - | pa
      · rw [hres] at hi; exact absurd hi (by simp)
      · obtain ⟨i', a⟩ := pa
        rw [hres] at hi
        simp only [Option.map_some', Option.some.injEq] at hi
        subst hi
        have hchar := maxByKeyLast_enum_char MCTree.scoreVal (t.children.filterMap id) i' a hres
        exact ⟨a, hchar.1, fun _ j b hj => hchar.2 j b hj, fun hf => absurd hf (by simp)⟩
  | false =>
    constructor
    · rw [MCTree.bestChild, if_neg (by rw [hmax]; simp)]
      simp only [Option.map_eq_none']
      rw [minByKeyFirst_eq_none_iff]
      simp
    · intro i hi
      rw [MCTree.bestChild, if_neg (by rw [hmax]; simp)] at hi
      rcases hres : minByKeyFirst (fun p : ℕ × MCTree => p.2.scoreVal)
          (t.children.filterMap id).enum with - | pa
      · rw [hres] at hi; exact absurd hi (by simp)
      · obtain ⟨i', a⟩ := pa
        rw [hres] at hi
        simp only [Option.map_some', Option.some.injEq] at hi
        subst hi
        have hchar := minByKeyFirst_enum_char MCTree.scoreVal (t.children.filterMap id) i' a hres
        exact ⟨a, hchar.1, fun ht => absurd ht (by simp),
          fun _ j b hj => hchar.2 j b hj⟩

/-- Witness for the amended C2 at `tieNode`: applying the theorem at the
concrete tie yields the position of the returned child among the expanded
children together with its optimality. -/
theorem c2_witness :
    ∃ a, ((tieNode.children.filterMap id).get? 1 = some a ∧
      (tieNode.maximizing = true →
        ∀ j b, (tieNode.children.filterMap id).get? j = some b →
          b.scoreVal ≤ a.scoreVal ∧ (1 < j → b.scoreVal < a.scoreVal)) ∧
      (tieNode.maximizing = false →
        ∀ j b, (tieNode.children.filterMap id).get? j = some b →
          a.scoreVal ≤ b.scoreVal ∧ (j < 1 → a.scoreVal < b.scoreVal))) :=
  (c2_amended tieNode).2 1 tieNode_bestChild

/-- The selection value of an unvisited node is `f64::MAX` exactly when its
own `maximizing` flag is set, else `f64::MIN`. -/
lemma msv_unvisited (c : MCTree) (total : ℕ) (hs : c.searches = 0) :
    c.moveSelectionValue total = if c.maximizing then f64MAX else f64MIN := by
  simp [MCTree.moveSelectionValue, hs]

/-- A visited child (flag set, nonnegative value, `u64` total) has
selection value strictly below `f64::MAX`. -/
lemma msv_visited_lt_max (c : MCTree) (total : ℕ) (hflag : c.maximizing = true)
    (hv : 0 ≤ c.value) (hs : c.searches ≠ 0) (h1 : 1 ≤ total) (h2 : total < 2 ^ 64) :
    c.moveSelectionValue total < f64MAX := by
  rw [MCTree.moveSelectionValue, if_neg hs, hflag, if_pos rfl]
  have htR : (1 : ℝ) ≤ (total : ℝ) := by exact_mod_cast h1
  have htR2 : (total : ℝ) < 2 ^ 64 := by exact_mod_cast h2
  have hsR : (1 : ℝ) ≤ (c.searches : ℝ) := by
    have : 1 ≤ c.searches := Nat.one_le_iff_ne_zero.mpr hs
    exact_mod_cast this
  have hlog0 : 0 ≤ Real.log total := Real.log_nonneg htR
  have hlog : Real.log total ≤ (total : ℝ) - 1 :=
    Real.log_le_sub_one_of_pos (by linarith)
  have hdiv : Real.log total / (c.searches : ℝ) ≤ Real.log total :=
    div_le_self hlog0 hsR
  have hdiv2 : Real.log total / (c.searches : ℝ) ≤ 2 ^ 64 := by linarith
  have hsqrt : Real.sqrt (Real.log total / (c.searches : ℝ)) ≤ 2 ^ 32 := by
    have h64 : ((2 : ℝ) ^ 64) = (2 ^ 32) ^ 2 := by norm_num
    have := Real.sqrt_le_sqrt hdiv2
    rwa [h64, Real.sqrt_sq (by positivity)] at this
  have hsqrt2 : Real.sqrt 2 ≤ 2 := by
    have : ((2 : ℝ)) ≤ 2 ^ 2 := by norm_num
    have h := Real.sqrt_le_sqrt this
    rwa [Real.sqrt_sq (by norm_num : (0:ℝ) ≤ 2)] at h
  have hscore : (0 : ℝ) ≤ (c.scoreQ : ℝ) := by
    rw [MCTree.scoreQ]
    push_cast
    apply div_nonneg
    · exact_mod_cast hv
    · positivity
  have hmul : Real.sqrt 2 * Real.sqrt (Real.log total / (c.searches : ℝ)) ≤ 2 * 2 ^ 32 := by
    apply mul_le_mul hsqrt2 hsqrt (Real.sqrt_nonneg _) (by norm_num)
  have : (1 : ℝ) - (c.scoreQ : ℝ) + Real.sqrt 2 *
      Real.sqrt (Real.log total / (c.searches : ℝ)) ≤ 1 + 2 * 2 ^ 32 := by linarith
  have hbig : (1 : ℝ) + 2 * 2 ^ 32 < f64MAX := by
    rw [f64MAX]; norm_num
  linarith

/-- Claim C1 (amended).  The selection value of an unvisited child is
`f64::MAX` (the largest finite double, not an infinity) exactly when the
*child's* `maximizing` flag is set — equivalently, since `new_child` negates
the parent's flag, when the *selecting node's* flag is `false` — and
`f64::MIN` when it is not.  Consequently, on a fully expanded node whose
flag is `false`, with children flagged oppositely, accumulators nonnegative
and a `u64` total, the child-selection step of `select` picks an unvisited
child ahead of every visited child; when the selecting node's flag is
`true` the preference is inverted (see the counterexample). -/
theorem c1_amended (t : MCTree) (total : ℕ)
    (hall : t.children.all Option.isSome = true)
    (hmax : t.maximizing = false)
    (hflags : ∀ i c, t.children.get? i = some (some c) → c.maximizing = !t.maximizing)
    (hval : ∀ i c, t.children.get? i = some (some c) → 0 ≤ c.value)
    (hunv : ∃ i c, t.children.get? i = some (some c) ∧ c.searches = 0)
    (htot1 : 1 ≤ total) (htot2 : total < 2 ^ 64) :
    (∃ i c, t.selectedChildIndex total = some i ∧
      t.children.get? i = some (some c) ∧ c.searches = 0) ∧
    (∀ j u, t.children.get? j = some (some u) → u.searches = 0 →
      u.moveSelectionValue total = f64MAX) := by
  have hall' : ∀ o ∈ t.children, o.isSome = true := List.all_eq_true.mp hall
  have hfm := filterMap_id_get t.children hall'
  have hslot_of_exp : ∀ i c, (t.children.filterMap id).get? i = some c →
      t.children.get? i = some (some c) := by
    intro i c h
    rw [hfm i] at h
    rcases hcs : t.children.get? i with - | o
    · rw [hcs] at h; exact absurd h (by simp)
    · rw [hcs] at h
      cases o with
      | none => exact absurd h (by simp)
      | some c0 => simp at h; subst h; rfl
  have hexp_of_slot : ∀ i c, t.children.get? i = some (some c) →
      (t.children.filterMap id).get? i = some c := by
    intro i c h
    rw [hfm i, h]
    rfl
  obtain ⟨j0, u0, hj0, hu0⟩ := hunv
  have hmaxflag : ∀ i c, t.children.get? i = some (some c) → c.maximizing = true := by
    intro i c h
    rw [hflags i c h, hmax]
    rfl
  have hu0max : u0.moveSelectionValue total = f64MAX := by
    rw [msv_unvisited u0 total hu0, if_pos (hmaxflag j0 u0 hj0)]
  refine ⟨?_, fun j u hj hu => by
    rw [msv_unvisited u total hu, if_pos (hmaxflag j u hj)]⟩
  rcases hres : maxByKeyLast (fun p : ℕ × MCTree => p.2.moveSelectionValue total)
      (t.children.filterMap id).enum with - | pa
  · exfalso
    have hnil := (maxByKeyLast_eq_none_iff _ _).mp hres
    have : (t.children.filterMap id) = [] := by simpa using hnil
    have := hexp_of_slot j0 u0 hj0
    rw [this] at *
    simp_all
  · obtain ⟨i, a⟩ := pa
    have hchar := maxByKeyLast_enum_char (fun c : MCTree => c.moveSelectionValue total)
      (t.children.filterMap id) i a hres
    have hia : t.children.get? i = some (some a) := hslot_of_exp i a hchar.1
    have hasearch : a.searches = 0 := by
      by_contra hne
      have hlt : a.moveSelectionValue total < f64MAX :=
        msv_visited_lt_max a total (hmaxflag i a hia) (hval i a hia) hne htot1 htot2
      have hdom' : f64MAX ≤ a.moveSelectionValue total := by
        have hdom := (hchar.2 j0 u0 (hexp_of_slot j0 u0 hj0)).1
        simpa [hu0max] using hdom
      exact absurd (lt_of_le_of_lt hdom' hlt) (lt_irrefl _)
    refine ⟨i, a, ?_, hia, hasearch⟩
    rw [MCTree.selectedChildIndex, hres]
    rfl

/-! ## Concrete games used for witnesses and counterexamples -/

/-- Witness for the amended C1 at `mixNode` (total = 1): the selection step
picks the unvisited child and assigns it `f64::MAX`. -/
theorem c1_witness :
    (∃ i c, mixNode.selectedChildIndex 1 = some i ∧
      mixNode.children.get? i = some (some c) ∧ c.searches = 0) ∧
    (∀ j u, mixNode.children.get? j = some (some u) → u.searches = 0 →
      u.moveSelectionValue 1 = f64MAX) :=
  c1_amended mixNode 1 rfl rfl
    (by
      intro i c h
      rcases i with - | - | i
      · simp only [mixNode, MCTree.children_mk, List.get?_cons_zero,
          Option.some.injEq] at h
        subst h; rfl
      · simp only [mixNode, MCTree.children_mk, List.get?_cons_succ,
          List.get?_cons_zero, Option.some.injEq] at h
        subst h; rfl
      · simp [mixNode] at h)
    (by
      intro i c h
      rcases i with - | - | i
      · simp only [mixNode, MCTree.children_mk, List.get?_cons_zero,
          Option.some.injEq] at h
        subst h; exact le_refl _
      · simp only [mixNode, MCTree.children_mk, List.get?_cons_succ,
          List.get?_cons_zero, Option.some.injEq] at h
        subst h; exact le_refl _
      · simp [mixNode] at h)
    ⟨0, unvisitedChild, rfl, rfl⟩ (by decide) (by decide)

lemma msv_x0 : x0.moveSelectionValue 1 = f64MIN := by
  simp [MCTree.moveSelectionValue, x0]

lemma msv_x1 : x1.moveSelectionValue 1 = 0 := by
  simp [MCTree.moveSelectionValue, x1, MCTree.scoreQ, Real.log_one, Real.sqrt_zero]

lemma f64MIN_le_zero : f64MIN ≤ (0 : ℝ) := by
  rw [f64MIN, f64MAX]; norm_num

lemma tX_selectedChildIndex : tX.selectedChildIndex 1 = some 1 := by
  have hcond : x0.moveSelectionValue 1 ≤ x1.moveSelectionValue 1 := by
    rw [msv_x0, msv_x1]; exact f64MIN_le_zero
  rw [MCTree.selectedChildIndex]
  show ((if x0.moveSelectionValue 1 ≤ x1.moveSelectionValue 1 then some ((1 : ℕ), x1)
    else some ((0 : ℕ), x0)).map Prod.fst) = some 1
  rw [if_pos hcond]
  rfl

lemma evalC_select :
    select gC 2 tX 0 () [] 1 = some (tXafter, .whiteWin, 0, (), [], 0) := by
  simp only [select, tX_selectedChildIndex]
  norm_num [tX, gC, expand, x0, x1, x1after, tXafter, MCTree.setChild,
    MCTree.setFullyExpanded, MCTree.addValue]

/-- Claim C1 (counterexample).  `tX` is fully expanded, its position (game
C's root, Black to move) is non-terminal, its `maximizing` flag is `true`,
and slot 0 holds an unvisited child.  The claim says `select` must then
pick the unvisited child, whose selection value should be +infinity since
the selecting node maximizes.  In fact the unvisited child's value is
`f64::MIN` (the code consults the *child's* flag, which `new_child` sets to
the negation of the parent's) and `select` descends into the *visited*
child in slot 1, leaving the unvisited child untouched. -/
theorem c1_counterexample :
    gC.gameResult 0 = none ∧
    tX.isFullyExpanded = true ∧
    tX.maximizing = true ∧
    tX.children.get? 0 = some (some x0) ∧ x0.searches = 0 ∧
    x0.moveSelectionValue 1 = f64MIN ∧ f64MIN < 0 ∧
    select gC 2 tX 0 () [] 1 = some (tXafter, .whiteWin, 0, (), [], 0) ∧
    tXafter.children.get? 0 = some (some x0) ∧
    tXafter.children.get? 1 = some (some x1after) ∧
    x1after.searches = 2 := by
  refine ⟨rfl, rfl, rfl, rfl, rfl, msv_x0, ?_, evalC_select, rfl, rfl, rfl⟩
  rw [f64MIN, f64MAX]; norm_num

lemma evalA_newRoot : newRoot gA 3 0 () [0, 0] = some (RA, 0, (), [0]) := by
  norm_num [newRoot, newRootLoop, expand, simulate, pickSlot, gA, List.replicate,
    MCTree.newChild, MCTree.setChild, MCTree.setFullyExpanded, MCTree.addValue,
    Score.new, RA, cA1]

lemma evalA_select1 : select gA 3 RA 0 () [0] 1 = some (RA1, .draw, 0, (), [], 1) := by
  norm_num [select, MCTree.selectedChildIndex, maxByKeyLast, List.enum, List.enumFrom,
    RA, cA1, gA, expand, simulate, pickSlot, MCTree.newChild, MCTree.setChild,
    MCTree.setFullyExpanded, MCTree.addValue, Score.new, RA1, cA1after, cA2]

lemma evalA_select2 : select gA 4 RA1 0 () [] 2 = some (RA2, .draw, 0, (), [], 0) := by
  norm_num [select, MCTree.selectedChildIndex, maxByKeyLast, List.enum, List.enumFrom,
    RA1, cA1after, cA2, gA, expand, simulate, pickSlot, MCTree.newChild, MCTree.setChild,
    MCTree.setFullyExpanded, MCTree.addValue, Score.new, RA2, cA1after2, cA2after]

lemma gA_contract : UndoContract gA := fun p m => rfl

lemma reach_RA1 : Reach gA 0 RA1 :=
  Reach.selStep RA 3 () [0] 1 RA1 .draw 0 () [] 1
    (Reach.root 3 () [0, 0] RA 0 () [0] evalA_newRoot) evalA_select1

lemma reach_RA2 : Reach gA 0 RA2 :=
  Reach.selStep RA1 4 () [] 2 RA2 .draw 0 () [] 0 reach_RA1 evalA_select2

lemma subAtStrict_cA1after : SubAtStrict gA 0 RA1 ((gA.doMove 0 ()).1) cA1after :=
  SubAtStrict.step 0 RA1 0 cA1after () _ _ rfl rfl (SubAt.refl _ _)

/-- Claim C5 (counterexample).  After root construction and one sequential
`select` in game A, the root's child `cA1after` is fully expanded and
stands for the non-terminal position 1, yet its visit count is 2 while its
children's visit counts sum to 1: the equality claimed for every fully
expanded node fails (the node's creation rollout is recorded in the node
itself, not in any child). -/
theorem c5_counterexample :
    newRoot gA 3 0 () [0, 0] = some (RA, 0, (), [0]) ∧
    select gA 3 RA 0 () [0] 1 = some (RA1, .draw, 0, (), [], 1) ∧
    RA1.children.get? 0 = some (some cA1after) ∧
    gA.gameResult ((gA.doMove 0 ()).1) = none ∧
    cA1after.isFullyExpanded = true ∧
    cA1after.searches = 2 ∧
    sumChildSearches cA1after.children = 1 :=
  ⟨evalA_newRoot, evalA_select1, rfl, rfl, rfl, rfl, rfl⟩

/-- Claim C5 (amended).  After root construction and any sequence of
sequential `select`/`expand` calls (under the `EvalBoard` undo contract):
at the *root*, when its position is non-terminal, the visit count equals
the sum of the children's visit counts exactly; at every *strict
descendant* standing for a non-terminal position, the visit count exceeds
the children's sum by exactly one (the node's creation rollout is recorded
at the node itself).  In particular the difference is at most 1 everywhere
away from terminal positions, matching the code's debug assertion. -/
theorem c5_amended {P M U R : Type} (g : EvalBoard P M U R) (hc : UndoContract g)
    {p : P} {t : MCTree} (hr : Reach g p t) :
    (g.gameResult p = none → t.isFullyExpanded = true →
      t.searches = sumChildSearches t.children) ∧
    (∀ q s, SubAtStrict g p t q s → g.gameResult q = none → s.isFullyExpanded = true →
      s.searches = sumChildSearches s.children + 1) := by
  have hcoh := reach_coh hc hr
  constructor
  · intro hn _
    have := hcoh.balance hn
    omega
  · intro q s hsub hn _
    exact (coh_of_subAtStrict hsub hcoh).balance hn

/-- Witness for the amended C5 in game A: the root `RA1` satisfies the
exact equality, its child `cA1after` the off-by-one form. -/
theorem c5_witness :
    RA1.searches = sumChildSearches RA1.children ∧
    cA1after.searches = sumChildSearches cA1after.children + 1 :=
  ⟨(c5_amended gA gA_contract reach_RA1).1 rfl rfl,
    (c5_amended gA gA_contract reach_RA1).2 _ cA1after subAtStrict_cA1after rfl rfl⟩

/-- Claim C6 (counterexample).  In game A, the second `select` descends to
the terminal grandchild and records its result directly: the call reports
zero `simulate()` terminations, yet the root's visit count rises from 2 to
3.  `visitCount` therefore exceeds the number of `simulate()` terminations
recorded at or below the node (3 visits, 2 simulations after this run). -/
theorem c6_counterexample :
    newRoot gA 3 0 () [0, 0] = some (RA, 0, (), [0]) ∧
    select gA 3 RA 0 () [0] 1 = some (RA1, .draw, 0, (), [], 1) ∧
    select gA 4 RA1 0 () [] 2 = some (RA2, .draw, 0, (), [], 0) ∧
    RA1.searches = 2 ∧ RA2.searches = 3 :=
  ⟨evalA_newRoot, evalA_select1, evalA_select2, rfl, rfl⟩

/-- Claim C6 (amended).  For every node of a tree built by root construction
and any sequence of sequential `select`/`expand` calls, `visitCount`
equals the sum of the three `outcomeCounts` counters.  (It counts every
recorded terminal result — `simulate()` terminations *plus* direct
terminal-position evaluations — so it can exceed the number of
`simulate()` terminations alone; see the counterexample.) -/
theorem c6_amended {P M U R : Type} (g : EvalBoard P M U R) (hc : UndoContract g)
    {p : P} {t : MCTree} (hr : Reach g p t) :
    ∀ q s, SubAt g p t q s → s.searches = s.score.sumScore := by
  intro q s hsub
  rcases coh_of_subAt hsub (reach_coh hc hr) with h | h
  · exact h.searches_eq
  · exact h.searches_eq

/-- Witness for the amended C6 at the game-A root after two selects. -/
theorem c6_witness : RA2.searches = RA2.score.sumScore :=
  c6_amended gA gA_contract reach_RA2 0 RA2 (SubAt.refl _ _)

/-- Claim C9 (confirmed).  Under the `EvalBoard` undo contract (undoing an
applied move restores the position exactly — the "bit-for-bit" guarantee
of the external game), every sequential `select` call that returns
normally hands back the position it was given: each move applied during
the descent (in `select` and `expand`) is undone before returning, and
`simulate` consumes a private copy, so the caller's position is never
mutated. -/
theorem c9_position_roundtrip {P M U R : Type} (g : EvalBoard P M U R)
    (hc : UndoContract g) (fuel : ℕ) (t : MCTree) (pos : P) (rng : R) (grng : List ℕ)
    (total : ℕ) (t' : MCTree) (r : GameResult) (p' : P) (rng' : R) (grng' : List ℕ)
    (k : ℕ) (h : select g fuel t pos rng grng total = some (t', r, p', rng', grng', k)) :
    p' = pos :=
  select_pos_eq hc fuel h

/-- Witness for C9: the game-A `select` run starts and ends at position 0. -/
theorem c9_witness : (0 : ℕ) = (0 : ℕ) :=
  c9_position_roundtrip gA gA_contract 3 RA 0 () [0] 1 RA1 .draw 0 () [] 1 evalA_select1

/-- Claim C10 (confirmed).  In every tree state reached by root construction
and sequential `select`/`expand` calls, every filled child slot anywhere in
the tree holds a node with `visitCount ≥ 1` (`expand` records the
simulation result into a child at the moment it creates it); consequently
`move_selection_value` computes the visited-child formula for such a child
— its `visitCount == 0` branch is never exercised during sequential
`select` on a fully expanded node. -/
theorem c10_expanded_children_visited {P M U R : Type} (g : EvalBoard P M U R)
    (hc : UndoContract g) {p : P} {t : MCTree} (hr : Reach g p t)
    {q : P} {s : MCTree} (hsub : SubAt g p t q s) {i : ℕ} {c : MCTree}
    (hi : s.children.get? i = some (some c)) :
    1 ≤ c.searches ∧
    ∀ total : ℕ, c.moveSelectionValue total =
      (if c.maximizing then 1 - (c.scoreQ : ℝ) else (c.scoreQ : ℝ)) +
        Real.sqrt 2 * Real.sqrt (Real.log total / (c.searches : ℝ)) := by
  have hvisits : 1 ≤ c.searches := by
    rcases coh_of_subAt hsub (reach_coh hc hr) with h | h
    · exact h.child_visits hi
    · exact h.child_visits hi
  refine ⟨hvisits, fun total => ?_⟩
  rw [MCTree.moveSelectionValue, if_neg (by omega)]

/-- Witness for C10 at the game-A root after one `select`: the single
child slot holds a node with two visits, and its selection value takes the
visited-child form. -/
theorem c10_witness :
    1 ≤ cA1after.searches ∧
    ∀ total : ℕ, cA1after.moveSelectionValue total =
      (if cA1after.maximizing then 1 - (cA1after.scoreQ : ℝ) else (cA1after.scoreQ : ℝ)) +
        Real.sqrt 2 * Real.sqrt (Real.log total / (cA1after.searches : ℝ)) :=
  c10_expanded_children_visited gA gA_contract reach_RA1 (SubAt.refl _ _)
    (show RA1.children.get? 0 = some (some cA1after) from rfl)

/-- Claim C4 (amended).  `select_parallel` does not degrade to the sequential
`select` at thread budget 1: the budget only decides whether the two forked
branches recurse in parallel, and the top-two children are always both
descended.  A successful sequential `select` adds exactly 1 to the node's
visit count, while a successful `select_parallel` with thread budget 1 on a
non-terminal node adds exactly 2 (one recorded result per branch), so N
iterations of each produce different tree statistics. -/
theorem c4_parallel_not_sequential {P M U R : Type} (g : EvalBoard P M U R) :
    (∀ (fuel : ℕ) (t : MCTree) (pos : P) (rng : R) (grng : List ℕ) (total : ℕ)
      (t' : MCTree) (r : GameResult) (p' : P) (rng' : R) (grng' : List ℕ) (k : ℕ),
      select g fuel t pos rng grng total = some (t', r, p', rng', grng', k) →
      t'.searches = t.searches + 1) ∧
    (∀ (fuel : ℕ) (t : MCTree) (pos : P) (rng : R) (grng : List ℕ) (total : ℕ)
      (t' : MCTree) (sc : Score) (grng' : List ℕ) (k : ℕ),
      g.gameResult pos = none →
      selectParallel g fuel t pos rng grng total 1 = some (t', sc, grng', k) →
      t'.searches = t.searches + 2) := by
  constructor
  · intro fuel t pos rng grng total t' r p' rng' grng' k h
    exact select_searches_succ g h
  · intro fuel t pos rng grng total t' sc grng' k hn h
    cases fuel with
    | zero => exact absurd h (by simp [selectParallel])
    | succ fuel0 =>
      simp only [selectParallel] at h
      cases hall : t.children.all Option.isSome with
      | false => rw [hall] at h; exact absurd h (by simp)
      | true =>
        rw [hall] at h
        simp only [eq_self_iff_true, if_true] at h
        cases hfe : t.isFullyExpanded with
        | false => rw [hfe] at h; exact absurd h (by simp)
        | true =>
          rw [hfe] at h
          simp only [eq_self_iff_true, if_true] at h
          rw [hn] at h
          dsimp only at h
          have h12 : (1 : ℕ) < 2 := by norm_num
          simp only [h12, if_true] at h
          split at h
          · split at h
            · exact absurd h (by simp)
            · split at h
              · exact absurd h (by simp)
              · split at h
                · exact absurd h (by simp)
                · split at h
                  · exact absurd h (by simp)
                  · rename_i c1' s1 grng1 k1 heq1
                    split at h
                    · exact absurd h (by simp)
                    · rename_i c2' s2 grng2 k2 heq2
                      have hs1 : s1.sumScore = 1 := by
                        split at heq1
                        · split at heq1
                          · split at heq1
                            · simp only [Option.some.injEq, Prod.mk.injEq] at heq1
                              obtain ⟨-, hs, -⟩ := heq1
                              rw [← hs, Score.fromGameResult_sumScore]
                            · exact absurd heq1 (by simp)
                          · split at heq1
                            · simp only [Option.some.injEq, Prod.mk.injEq] at heq1
                              obtain ⟨-, hs, -⟩ := heq1
                              rw [← hs, Score.fromGameResult_sumScore]
                            · exact absurd heq1 (by simp)
                        · exact absurd heq1 (by simp)
                      have hs2 : s2.sumScore = 1 := by
                        split at heq2
                        · split at heq2
                          · split at heq2
                            · simp only [Option.some.injEq, Prod.mk.injEq] at heq2
                              obtain ⟨-, hs, -⟩ := heq2
                              rw [← hs, Score.fromGameResult_sumScore]
                            · exact absurd heq2 (by simp)
                          · split at heq2
                            · simp only [Option.some.injEq, Prod.mk.injEq] at heq2
                              obtain ⟨-, hs, -⟩ := heq2
                              rw [← hs, Score.fromGameResult_sumScore]
                            · exact absurd heq2 (by simp)
                        · exact absurd heq2 (by simp)
                      simp only [Option.some.injEq, Prod.mk.injEq] at h
                      obtain ⟨ht', -⟩ := h
                      rw [← ht', MCTree.applyScore_searches, MCTree.setChild_searches,
                        MCTree.setChild_searches, Score.addScore_sumScore,
                        Score.addScore_sumScore, hs1, hs2]
                      rfl
          · exact absurd h (by simp)

lemma evalB_newRoot : newRoot gB 3 0 () [0, 1] = some (RB, 0, (), []) := by
  norm_num [newRoot, newRootLoop, expand, simulate, pickSlot, gB, List.replicate,
    MCTree.newChild, MCTree.setChild, MCTree.setFullyExpanded, MCTree.addValue,
    Score.new, RB, cB]

lemma RB_selectedChildIndex : RB.selectedChildIndex 2 = some 1 := by
  simp [MCTree.selectedChildIndex, maxByKeyLast, RB, List.enum, List.enumFrom]

lemma evalB_select : select gB 2 RB 0 () [] 2 = some (RB1, .draw, 0, (), [], 0) := by
  simp only [select, RB_selectedChildIndex]
  norm_num [RB, cB, gB, expand, MCTree.setChild, MCTree.setFullyExpanded,
    MCTree.addValue, RB1, cBafter]

lemma evalB_selectParallel :
    selectParallel gB 2 RB 0 () [] 2 1 = some (RB2, ⟨0, 0, 2⟩, [], 0) := by
  norm_num [selectParallel, gB, RB, cB, expand, List.insertionSort, List.orderedInsert,
    MCTree.setChild, MCTree.setFullyExpanded, MCTree.addValue, MCTree.applyScore,
    Score.addScore, Score.new, Score.fromGameResult, Score.sumScore, RB2, cBafter,
    List.enum, List.enumFrom]

/-- Claim C4 (counterexample).  In game B, starting from the same freshly
built root `RB` (two visits), one sequential `select` yields a root with 3
visits while one `select_parallel` call with thread budget 1 yields a root
with 4 visits: at thread budget 1 `select_parallel` still descends the two
top children (the budget only stops further parallel recursion), so the
two procedures do not produce identical tree statistics. -/
theorem c4_counterexample :
    newRoot gB 3 0 () [0, 1] = some (RB, 0, (), []) ∧
    select gB 2 RB 0 () [] 2 = some (RB1, .draw, 0, (), [], 0) ∧
    selectParallel gB 2 RB 0 () [] 2 1 = some (RB2, ⟨0, 0, 2⟩, [], 0) ∧
    RB1.searches = 3 ∧ RB2.searches = 4 ∧ RB1.searches ≠ RB2.searches :=
  ⟨evalB_newRoot, evalB_select, evalB_selectParallel, rfl, rfl, by decide⟩

/-- Witness for the amended C4 at game B's root: the sequential call adds
one visit, the budget-1 parallel call adds two. -/
theorem c4_witness :
    RB1.searches = RB.searches + 1 ∧ RB2.searches = RB.searches + 2 :=
  ⟨(c4_parallel_not_sequential gB).1 2 RB 0 () [] 2 RB1 .draw 0 () [] 0 evalB_select,
    (c4_parallel_not_sequential gB).2 2 RB 0 () [] 2 RB2 ⟨0, 0, 2⟩ [] 0 rfl
      evalB_selectParallel⟩
